import Mathlib

/-!
Verification of the Surecast workflow engine and ENS text-record codec.

JavaScript strings are modeled as lists of characters (`JStr`), JavaScript
numbers on the integer paths as `Nat`, nullable values as `Option`, and
thrown exceptions as `Except` / `Option` results.  Each definition mirrors
one function of the source; the file comments name the source location.
-/

namespace Surecast

/-- A JavaScript string, modeled as a list of characters. -/
abbrev JStr := List Char

/-- JS `String.prototype.split` with a single-character separator.
`"".split(sep)` yields `[""]`, and separators at the ends yield empty
fields, exactly as in JS. -/
def jsSplit (sep : Char) : JStr → List JStr
  | [] => [[]]
  | c :: rest =>
    let r := jsSplit sep rest
    if c = sep then [] :: r
    else
      match r with
      | [] => [[c]]
      | h :: t => (c :: h) :: t

/-- JS `String.prototype.padEnd` with a one-character pad. -/
def jsPadEnd (s : JStr) (n : Nat) (c : Char) : JStr :=
  s ++ List.replicate (n - s.length) c

/-- JS `String.prototype.padStart` with a one-character pad. -/
def jsPadStart (s : JStr) (n : Nat) (c : Char) : JStr :=
  List.replicate (n - s.length) c ++ s

/-- JS `String.prototype.slice` restricted to non-negative indices
(the only way the source calls it): characters from `a` up to
(excluding) `b`, clamped to the string length. -/
def jsSlice (s : JStr) (a b : Nat) : JStr := (s.take b).drop a

/-- JS `replace(/0+$/, ..)` with the empty replacement: trim trailing
zero characters. -/
def trimTrailingZeros (s : JStr) : JStr :=
  (s.reverse.dropWhile (fun c => c = '0')).reverse

/-- JS `startsWith(..)` test and strip of a leading literal `0x`. -/
def strip0x (s : JStr) : JStr :=
  match s with
  | '0' :: 'x' :: rest => rest
  | other => other

/- ============================================================
   Amount codec
   ============================================================ -/

/-- `parseAmount` from `packages/snap/src/helpers.ts`: split a human
decimal string on the dot, right-pad / truncate the fraction to exactly
`decimals` digits, concatenate, strip leading zeros, and fall back to
`"0"` for an all-zero result. -/
def parseAmount (human : JStr) (decimals : Nat) : JStr :=
  let parts := jsSplit '.' human
  let intPart := parts.getD 0 ['0']
  let fracPart := jsSlice (jsPadEnd (parts.getD 1 []) decimals '0') 0 decimals
  let stripped := (intPart ++ fracPart).dropWhile (fun c => c = '0')
  if stripped = [] then ['0'] else stripped

/-- `formatTokenAmount` from `packages/snap/src/services/lifi.ts`:
left-pad the base-unit string to `decimals + 1` digits, split into
integer and fractional parts, keep at most 4 fractional digits, trim
trailing zeros, and omit the dot when the fraction is empty. -/
def formatTokenAmount (amount : JStr) (decimals : Nat) : JStr :=
  if amount = [] ∨ amount = ['0'] then ['0']
  else
    let padded := jsPadStart amount (decimals + 1) '0'
    let intPart0 := jsSlice padded 0 (padded.length - decimals)
    let intPart := if intPart0 = [] then ['0'] else intPart0
    let fracPart := jsSlice (padded.drop (padded.length - decimals)) 0 4
    let trimmed := trimTrailingZeros fracPart
    if trimmed = [] then intPart else intPart ++ '.' :: trimmed

/-- Value of a decimal digit character. -/
def digitVal (c : Char) : Nat := c.toNat - '0'.toNat

/-- Natural-number value of a digit string (most significant first). -/
def natVal (s : JStr) : Nat := s.foldl (fun acc c => acc * 10 + digitVal c) 0

/-- Numeric value of a decimal string `int[.frac]`, as a rational. -/
def decValue (s : JStr) : ℚ :=
  let parts := jsSplit '.' s
  let ip := parts.getD 0 []
  let fp := parts.getD 1 []
  (natVal ip : ℚ) + (natVal fp : ℚ) / (10 : ℚ) ^ fp.length

/-- Is the character a decimal digit `0-9`? -/
def isDigitChar (c : Char) : Bool := decide (48 ≤ c.toNat ∧ c.toNat ≤ 57)

/- ============================================================
   Execution state (snap side)
   ============================================================ -/

/-- `StepExecutionStatus` from `packages/snap/src/types.ts`. -/
inductive StepStatus
  | pending
  | quoting
  | ready
  | switchingChain
  | confirming
  | success
  | stepError
deriving Repr, DecidableEq

/-- `StepExecution` from `packages/snap/src/types.ts`. -/
structure StepExecution where
  stepId : JStr
  status : StepStatus
  txHash : Option JStr
  chainId : Option Nat
  errMsg : Option JStr
  quotedOutput : Option JStr
  quotedOutputDecimals : Option Nat
deriving Repr, DecidableEq

/-- Overall execution status from `packages/snap/src/types.ts`. -/
inductive ExecStatus
  | running
  | paused
  | completed
  | failed
deriving Repr, DecidableEq

/-- `WorkflowExecution` from `packages/snap/src/types.ts`. -/
structure WorkflowExecution where
  workflowId : JStr
  startedAt : Nat
  currentStepIndex : Nat
  steps : List StepExecution
  status : ExecStatus
deriving Repr, DecidableEq

/-- JS truthiness of an optional string: present and non-empty. -/
def truthyStr (o : Option JStr) : Option JStr :=
  o.bind (fun s => if s = [] then none else some s)

/-- JS truthiness of an optional number: present and non-zero. -/
def truthyNat (o : Option Nat) : Option Nat :=
  o.bind (fun n => if n = 0 then none else some n)

/-- JS truthiness of an optional boolean: present and `true`. -/
def truthyBool (o : Option Bool) : Option Bool :=
  o.bind (fun b => if b then some true else none)

/-- Error raised by the amount resolution of `prepareStepQuote`. -/
inductive AmountError
  | chainingError
deriving Repr, DecidableEq

/-- The amount-resolution logic of `prepareStepQuote`
(`packages/snap/src/rpc.ts` lines 157-168): a step flagged
`useAllFromPrevious` at index above 0 consumes the previous step
execution's `quotedOutput` verbatim (throwing a chaining error when the
optional chain `prevStep?.quotedOutput` is falsy); otherwise the step's
fixed amount (default `"0"`) goes through `parseAmount`. -/
def resolveStepAmount (useAllFromPrevious : Bool) (stepIndex : Nat)
    (prevStep : Option StepExecution) (amount : Option JStr) (decimals : Nat) :
    Except AmountError JStr :=
  if useAllFromPrevious = true ∧ 0 < stepIndex then
    match truthyStr (prevStep.bind (fun p => p.quotedOutput)) with
    | none => .error .chainingError
    | some q => .ok q
  else
    .ok (parseAmount (amount.getD ['0']) decimals)

/-- The JS `status === 'success'` comparison. -/
def isSuccess : StepStatus → Bool
  | .success => true
  | _ => false

/-- The JS `status === 'error'` comparison. -/
def isErrorStatus : StepStatus → Bool
  | .stepError => true
  | _ => false

/-- `updateStepStatus` from `packages/snap/src/rpc.ts` (lines 205-249):
overwrite the indexed step's status, record `txHash` / `error` only when
truthy, recompute the overall status (`completed` when every step is a
success, else `failed` when any step errored, else `running`) and advance
`currentStepIndex` past the step on success.  The source throws on an
out-of-range index; the loops modeled here never reach that branch, so it
is modeled as the identity. -/
def updateStepStatus (e : WorkflowExecution) (stepIndex : Nat) (status : StepStatus)
    (txHash errMsg : Option JStr) : WorkflowExecution :=
  match e.steps[stepIndex]? with
  | none => e
  | some execStep =>
    let newStep : StepExecution :=
      { execStep with
        status := status
        txHash := match truthyStr txHash with
          | some h => some h
          | none => execStep.txHash
        errMsg := match truthyStr errMsg with
          | some m => some m
          | none => execStep.errMsg }
    let updatedSteps := e.steps.set stepIndex newStep
    let allSuccess := updatedSteps.all (fun st => isSuccess st.status)
    let anyError := updatedSteps.any (fun st => isErrorStatus st.status)
    { e with
      steps := updatedSteps
      currentStepIndex := if isSuccess status then stepIndex + 1 else e.currentStepIndex
      status := if allSuccess then .completed else if anyError then .failed else .running }

/-- The execution-state update `prepareStepQuote` performs after a successful
quote (`packages/snap/src/rpc.ts` lines 186-200): mark the step `ready` and
record the quoted output amount and decimals for the next step to chain
from. -/
def recordQuote (e : WorkflowExecution) (stepIndex : Nat)
    (toAmount : JStr) (toDecimals : Nat) : WorkflowExecution :=
  match e.steps[stepIndex]? with
  | none => e
  | some execStep =>
    { e with
      steps := e.steps.set stepIndex
        { execStep with
          status := .ready
          quotedOutput := some toAmount
          quotedOutputDecimals := some toDecimals } }

/-- Workflow step configuration from `packages/snap/src/types.ts`. -/
structure StepConfig where
  protocol : Option JStr := none
  fromToken : Option JStr := none
  toToken : Option JStr := none
  amount : Option JStr := none
  useAllFromPrevious : Option Bool := none
  fromChain : Option Nat := none
  toChain : Option Nat := none
deriving Repr, DecidableEq

/-- `WorkflowStep` from `packages/snap/src/types.ts` (the type tag is kept
as its string literal). -/
structure WorkflowStep where
  id : JStr
  type : JStr
  config : StepConfig
deriving Repr, DecidableEq

/-- `Workflow` from `packages/snap/src/types.ts`. -/
structure Workflow where
  id : JStr
  name : JStr
  steps : List WorkflowStep
  createdAt : Nat
  updatedAt : Nat
deriving Repr, DecidableEq

/-- The fresh per-step run record built by `startExecution`
(`packages/snap/src/rpc.ts` lines 92-106). -/
def initStepExecution (stepId : JStr) : StepExecution :=
  { stepId := stepId, status := .pending, txHash := none, chainId := none,
    errMsg := none, quotedOutput := none, quotedOutputDecimals := none }

/-- `startExecution` from `packages/snap/src/rpc.ts`: a fresh running
execution with one pending record per workflow step, in order. -/
def startExecution (wf : Workflow) (now : Nat) : WorkflowExecution :=
  { workflowId := wf.id, startedAt := now, currentStepIndex := 0,
    steps := wf.steps.map (fun s => initStepExecution s.id), status := .running }

/-- Outcome of the externally observable calls one loop iteration of the
site's `runSteps` makes for a step: the quote request can fail, the chain
switch can fail, the transaction submission can fail, or everything
succeeds with a transaction hash.  Successful quotes carry the quoted
output amount, its decimals, and the prepared transaction's chain id. -/
inductive StepOutcome
  | quoteFail (msg : JStr)
  | switchFail (toAmount : JStr) (toDecimals : Nat) (msg : JStr)
  | txFail (toAmount : JStr) (toDecimals : Nat) (txChainId : Nat) (msg : JStr)
  | ok (toAmount : JStr) (toDecimals : Nat) (txChainId : Nat) (txHash : JStr)

/-- The step loop of `runSteps` from `packages/site/src/pages/index.tsx`
(lines 978-1169), viewed through the sequence of snap-state transitions it
drives: per step it marks `quoting`, lets `prepareStepQuote` record the
quote, marks `switching-chain` when the prepared transaction carries a
truthy chain id, marks `confirming`, and on submission success marks
`success` with the transaction hash and continues; on any failure it marks
the step `error` with the failure message and returns without touching
later steps.  `fuel` is the number of loop indices left
(`wf.steps.length - i`), so the recursion is the `for` loop's bound. -/
def runStepsFrom (outcome : Nat → StepOutcome) :
    Nat → Nat → WorkflowExecution → WorkflowExecution
  | 0, _, e => e
  | fuel + 1, i, e =>
    let e1 := updateStepStatus e i .quoting none none
    match outcome i with
    | .quoteFail msg => updateStepStatus e1 i .stepError none (some msg)
    | .switchFail toAmount toDecimals msg =>
      let e2 := recordQuote e1 i toAmount toDecimals
      let e3 := updateStepStatus e2 i .switchingChain none none
      updateStepStatus e3 i .stepError none (some msg)
    | .txFail toAmount toDecimals txChainId msg =>
      let e2 := recordQuote e1 i toAmount toDecimals
      let e3 := if txChainId ≠ 0 then updateStepStatus e2 i .switchingChain none none else e2
      let e4 := updateStepStatus e3 i .confirming none none
      updateStepStatus e4 i .stepError none (some msg)
    | .ok toAmount toDecimals txChainId txHash =>
      let e2 := recordQuote e1 i toAmount toDecimals
      let e3 := if txChainId ≠ 0 then updateStepStatus e2 i .switchingChain none none else e2
      let e4 := updateStepStatus e3 i .confirming none none
      let e5 := updateStepStatus e4 i .success (some txHash) none
      runStepsFrom outcome fuel (i + 1) e5

/-- `runSteps` entered at `startFrom` for a workflow of `numSteps` steps. -/
def runSteps (outcome : Nat → StepOutcome) (numSteps startFrom : Nat)
    (e : WorkflowExecution) : WorkflowExecution :=
  runStepsFrom outcome (numSteps - startFrom) startFrom e

/-- JS `Array.prototype.findIndex`, with `none` standing for `-1`. -/
def jsFindIndex {α : Type} (p : α → Bool) : List α → Option Nat
  | [] => none
  | x :: xs => if p x then some 0 else (jsFindIndex p xs).map (· + 1)

/-- JS `Array.prototype.map` when the callback also uses the index. -/
def jsMapIdx {α : Type} (f : Nat → α → α) : Nat → List α → List α
  | _, [] => []
  | i, x :: xs => f i x :: jsMapIdx f (i + 1) xs

/-- The per-step reset `retryFromStep` applies to steps at or after the
failed index: status back to `pending`, error and hash cleared. -/
def resetStepForRetry (s : StepExecution) : StepExecution :=
  { s with status := .pending, errMsg := none, txHash := none }

/-- `retryFromStep` from `packages/site/src/pages/index.tsx` (lines
1237-1269), up to re-entering the loop: find the first non-`success`
index (returning without effect when there is none), reset every step at
or after it to `pending` with error and hash cleared, set the overall
status back to `running`, and hand the reset execution plus the index to
the step loop. -/
def retryFromStep (e : WorkflowExecution) : Option (WorkflowExecution × Nat) :=
  match jsFindIndex (fun s => !isSuccess s.status) e.steps with
  | none => none
  | some failedIdx =>
    some ({ e with
            status := .running,
            steps := jsMapIdx
              (fun idx s => if failedIdx ≤ idx then resetStepForRetry s else s) 0 e.steps },
          failedIdx)

/- ============================================================
   Hex strings and the hand-rolled ABI codec
   (packages/snap/src/services/ens.ts and packages/site/src/utils/ens.ts)
   ============================================================ -/

/-- Hex digit characters as produced by JS `Number.prototype.toString(16)`
(lowercase). -/
def hexDigitChar (n : Nat) : Char :=
  if n < 10 then Char.ofNat (n + 48) else Char.ofNat (n + 87)

/-- Fuel-driven digit expansion of `Number.prototype.toString(16)`. -/
def natToHexAux : Nat → Nat → JStr
  | 0, _ => []
  | fuel + 1, n =>
    if n < 16 then [hexDigitChar n]
    else natToHexAux fuel (n / 16) ++ [hexDigitChar (n % 16)]

/-- JS `n.toString(16)` for a natural number. -/
def natToHex (n : Nat) : JStr := natToHexAux (n + 1) n

/-- `encodeUint256` from the ENS services: hex digits left-padded with
zeros to 64 characters (one 32-byte word). -/
def encodeUint256 (n : Nat) : JStr := jsPadStart (natToHex n) 64 '0'

/-- Numeric value of a hex digit character (0 for anything else, the way
`parseInt` treats digits it has already accepted). -/
def hexVal (c : Char) : Nat :=
  if 48 ≤ c.toNat ∧ c.toNat ≤ 57 then c.toNat - 48
  else if 97 ≤ c.toNat ∧ c.toNat ≤ 102 then c.toNat - 87
  else if 65 ≤ c.toNat ∧ c.toNat ≤ 70 then c.toNat - 55
  else 0

/-- Is the character a hex digit (`0-9`, `a-f`, `A-F`)? -/
def isHexDigit (c : Char) : Bool :=
  decide ((48 ≤ c.toNat ∧ c.toNat ≤ 57) ∨ (97 ≤ c.toNat ∧ c.toNat ≤ 102) ∨
    (65 ≤ c.toNat ∧ c.toNat ≤ 70))

/-- Value of a string of hex digits, most significant first. -/
def parseHex (s : JStr) : Nat := s.foldl (fun acc c => acc * 16 + hexVal c) 0

/-- JS `parseInt(s, 16)`: parse the maximal hex-digit prefix; `none`
models the `NaN` result when no leading digit exists (in particular for
the empty string). -/
def jsParseIntHex (s : JStr) : Option Nat :=
  let digits := s.takeWhile (fun c => isHexDigit c)
  if digits = [] then none else some (parseHex digits)

/-- `toHex` from the ENS services: per-character `charCodeAt` rendered as
hex and left-padded to two digits. -/
def toHex (s : JStr) : JStr :=
  (s.map (fun c => jsPadStart (natToHex c.toNat) 2 '0')).flatten

/-- `padRight` from the ENS services: right-pad a hex string with zeros to
`bytes` bytes (`2 * bytes` characters). -/
def padRight (hex : JStr) (bytes : Nat) : JStr := jsPadEnd hex (bytes * 2) '0'

/-- The `Math.ceil(len / 32) * 32 || 32` word-padding of a byte length:
round up to a multiple of 32 bytes, with empty data still taking one
word. -/
def padWordBytes (len : Nat) : Nat :=
  if ((len + 31) / 32) * 32 = 0 then 32 else ((len + 31) / 32) * 32

/-- The `setText(bytes32,string,string)` selector `0x10f13a8c`. -/
def setTextSelector : JStr := ['1', '0', 'f', '1', '3', 'a', '8', 'c']

/-- `encodeSetText` from `packages/snap/src/services/ens.ts` (lines
57-80): selector, node word, offset-to-key word (96, counted from the
start of the parameter section), offset-to-value word (96 plus the key
block's size), key block (length word plus padded bytes), value block. -/
def encodeSetText (node key value : JStr) : JStr :=
  let nodeHex := strip0x node
  let keyPadded := padRight (toHex key) (padWordBytes key.length)
  let valuePadded := padRight (toHex value) (padWordBytes value.length)
  let keyOffset := encodeUint256 96
  let keyDataSize := 32 + padWordBytes key.length
  let valueOffset := encodeUint256 (96 + keyDataSize)
  let encodedKey := encodeUint256 key.length ++ keyPadded
  let encodedValue := encodeUint256 value.length ++ valuePadded
  '0' :: 'x' ::
    (setTextSelector ++ nodeHex ++ keyOffset ++ valueOffset ++ encodedKey ++ encodedValue)

/-- The `multicall(bytes[])` selector `0xac9650d8`. -/
def multicallSelector : JStr := ['a', 'c', '9', '6', '5', '0', 'd', '8']

/-- The tail block of one multicall item: length word (byte count) plus
the item's hex data right-padded to a word multiple. -/
def tailBlock (rawCall : JStr) : JStr :=
  encodeUint256 (rawCall.length / 2) ++ padRight rawCall (padWordBytes (rawCall.length / 2))

/-- Byte size of one multicall item's tail block: its length word plus
its padded data. -/
def blockBytes (rawCall : JStr) : Nat := 32 + padWordBytes (rawCall.length / 2)

/-- The head offset words of `encodeMulticall`, carrying the running
`tailOffset` of the source's loop (offsets are byte distances from the
start of the offset-word table). -/
def multicallHeads : List JStr → Nat → List JStr
  | [], _ => []
  | c :: cs, off => encodeUint256 off :: multicallHeads cs (off + blockBytes c)

/-- `encodeMulticall` from `packages/snap/src/services/ens.ts` (lines
280-313): selector, offset-to-array word (32), array length, one offset
word per item (relative to the start of the offset-word table), then the
items' length-prefixed padded blocks in order. -/
def encodeMulticall (calls : List JStr) : JStr :=
  let rawCalls := calls.map strip0x
  let heads := multicallHeads rawCalls (rawCalls.length * 32)
  let tails := rawCalls.map tailBlock
  '0' :: 'x' ::
    (multicallSelector ++ encodeUint256 32 ++ encodeUint256 rawCalls.length ++
      heads.flatten ++ tails.flatten)

/-- The 32-byte word at character position `pos`, as a number. -/
def wordAt (s : JStr) (pos : Nat) : Nat := parseHex ((s.drop pos).take 64)

/-- Decoder for the documented multicall layout (spec section 4.3):
selector, offset-to-array, array length, N offset words relative to the
start of the offset-word table, then N length-prefixed padded blocks.
This definition follows the spec's words (the source only encodes); the
round-trip theorem compares it against `encodeMulticall`. -/
def decodeMulticallPerSpec (payload : JStr) : List JStr :=
  let h := strip0x payload
  let params := h.drop 8
  let arrOff := wordAt params 0 * 2
  let n := wordAt params arrOff
  let tableStart := arrOff + 64
  (List.range n).map (fun i =>
    let o := wordAt params (tableStart + 64 * i) * 2
    let len := wordAt params (tableStart + o)
    (params.drop (tableStart + o + 64)).take (len * 2))

/-- `hexToBytes` plus `String.fromCharCode` from the ENS services: turn a
hex string into the string of the characters its byte pairs encode. -/
def hexToChars (dataHex : JStr) : JStr :=
  (List.range (dataHex.length / 2)).map (fun i =>
    Char.ofNat (parseHex (jsSlice dataHex (i * 2) (i * 2 + 2))))

/-- `decodeString` from `packages/snap/src/services/ens.ts` (lines
107-122, same body as the site's copy): inputs shorter than the offset
word plus length word give `null`; a zero length word gives `null`;
otherwise take exactly `length` bytes found at the head offset.  JS
`parseInt` `NaN` propagation (offset pointing past the input) makes every
later slice collapse, yielding the empty string - modeled by the `none`
branches of `jsParseIntHex`. -/
def decodeString (hex : JStr) : Option JStr :=
  let h := strip0x hex
  if h.length < 128 then none
  else
    match jsParseIntHex (jsSlice h 0 64) with
    | none => some []
    | some off0 =>
      let off := off0 * 2
      match jsParseIntHex (jsSlice h off (off + 64)) with
      | none => some []
      | some len =>
        if len = 0 then none
        else some (hexToChars (jsSlice h (off + 64) (off + 64 + len * 2)))

/-- A concrete well-formed ABI string result: offset word 32, length word
5, five bytes of data (`hello`). -/
def sampleAbiStringResult : JStr :=
  encodeUint256 32 ++ encodeUint256 5 ++
    ['6', '8', '6', '5', '6', 'c', '6', 'c', '6', 'f']

/-- A concrete 3-step workflow (used as the run-loop witness input). -/
def sampleWorkflow3 : Workflow :=
  { id := ['i'], name := ['n'],
    steps :=
      [{ id := ['s', '0'], type := ['s', 'w', 'a', 'p'], config := {} },
       { id := ['s', '1'], type := ['s', 'w', 'a', 'p'], config := {} },
       { id := ['s', '2'], type := ['s', 'w', 'a', 'p'], config := {} }],
    createdAt := 1, updatedAt := 2 }

/-- Concrete outcomes: step 0 succeeds, every later step fails its
quote. -/
def sampleOutcome : Nat → StepOutcome := fun i =>
  if i = 0 then .ok ['1', '0'] 6 1 ['h'] else .quoteFail ['E']

/- ============================================================
   Workflow serialization (packages/snap/src/services/ens.ts)
   ============================================================ -/

/-- `CompactStep` from the ENS service: the single-letter-keyed step
form; a missing JSON property is `none`. -/
structure CompactStep where
  t : JStr
  ft : Option JStr := none
  tt : Option JStr := none
  fc : Option Nat := none
  tc : Option Nat := none
  a : Option JStr := none
  all : Option Bool := none
deriving Repr, DecidableEq

/-- `CompactWorkflow` from the ENS service. -/
structure CompactWorkflow where
  v : Nat
  name : JStr
  ts : Nat
  steps : List CompactStep
deriving Repr, DecidableEq

/-- `serializeWorkflow` from `packages/snap/src/services/ens.ts` (lines
209-226), up to the compact object: each `if (s.config.x) step.k = ...`
emits the property exactly when the field is truthy.  The final
`JSON.stringify` / initial `JSON.parse` transport is the identity on this
compact record (it carries only strings, numbers, booleans and arrays),
so serialization is modeled to the compact record. -/
def serializeWorkflow (w : Workflow) : CompactWorkflow :=
  { v := 1, name := w.name, ts := w.updatedAt,
    steps := w.steps.map (fun s =>
      { t := s.type,
        ft := truthyStr s.config.fromToken,
        tt := truthyStr s.config.toToken,
        fc := truthyNat s.config.fromChain,
        tc := truthyNat s.config.toChain,
        a := truthyStr s.config.amount,
        all := truthyBool s.config.useAllFromPrevious }) }

/-- One step of `deserializeWorkflow`: a fresh generated id, the type tag
taken over, and each config field present exactly when the compact
property is truthy. -/
def deserializeStep (freshId : Nat → JStr) (i : Nat) (c : CompactStep) :
    WorkflowStep :=
  { id := freshId i,
    type := c.t,
    config :=
      { protocol := none,
        fromToken := truthyStr c.ft,
        toToken := truthyStr c.tt,
        amount := truthyStr c.a,
        useAllFromPrevious := truthyBool c.all,
        fromChain := truthyNat c.fc,
        toChain := truthyNat c.tc } }

/-- The step map of `deserializeWorkflow`, with the fresh-id counter. -/
def deserializeSteps (freshId : Nat → JStr) :
    Nat → List CompactStep → List WorkflowStep
  | _, [] => []
  | i, c :: cs => deserializeStep freshId i c :: deserializeSteps freshId (i + 1) cs

/-- `deserializeWorkflow` from `packages/snap/src/services/ens.ts` (lines
228-249): fresh ids throughout (`generateId` is modeled by the injected
`freshId` counter), `createdAt` taken from the stored timestamp,
`updatedAt` from the current clock. -/
def deserializeWorkflow (freshId : Nat → JStr) (now : Nat)
    (c : CompactWorkflow) : Workflow :=
  { id := freshId 0,
    name := c.name,
    steps := deserializeSteps freshId 1 c.steps,
    createdAt := c.ts,
    updatedAt := now }

/-- A concrete two-step workflow exercising both a fixed amount and the
chain-from-previous flag (serializer witness input). -/
def sampleWorkflowSer : Workflow :=
  { id := ['w'], name := ['m', 'y'],
    steps :=
      [{ id := ['a'], type := ['s', 'w', 'a', 'p'],
         config := { fromToken := some ['E', 'T', 'H'],
                     toToken := some ['U', 'S', 'D', 'C'],
                     amount := some ['1', '.', '5'],
                     fromChain := some 42161, toChain := some 42161 } },
       { id := ['b'], type := ['b', 'r', 'i', 'd', 'g', 'e'],
         config := { fromToken := some ['U', 'S', 'D', 'C'],
                     toToken := some ['U', 'S', 'D', 'C'],
                     useAllFromPrevious := some true,
                     fromChain := some 42161, toChain := some 8453 } }],
    createdAt := 3, updatedAt := 4 }

/-- Three concrete call payloads (one with a `0x` prefix, as produced by
`encodeSetText`) for the multicall round-trip witness. -/
def sampleCalls : List JStr :=
  [['0', 'x', 'a', 'b'], ['c', 'd', 'e', 'f', '1', '2'], ['0', '0']]

/- ============================================================
   keccak-256 and the ENS namehash
   (packages/site/src/utils/ens.ts; the hash itself comes from the
   external @noble/hashes dependency, so it is modeled from the standard
   Keccak-f[1600] sponge with rate 1088 and the 0x01 domain byte - the
   variant Ethereum and @noble's keccak_256 use.)
   ============================================================ -/

/-- 64-bit rotate left on a lane stored as a `Nat` below `2 ^ 64`. -/
def rotl64 (x n : Nat) : Nat :=
  ((x <<< n) % (2 ^ 64)) ||| (x >>> (64 - n))

/-- Lane `(x, y)` of a 5 x 5 Keccak state stored row-major. -/
def keccakLane (s : List Nat) (x y : Nat) : Nat := s.getD (x + 5 * y) 0

/-- The rho rotation offset of lane `x + 5 * y`. -/
def rhoOffset : Nat → Nat
  | 1 => 1
  | 2 => 62
  | 3 => 28
  | 4 => 27
  | 5 => 36
  | 6 => 44
  | 7 => 6
  | 8 => 55
  | 9 => 20
  | 10 => 3
  | 11 => 10
  | 12 => 43
  | 13 => 25
  | 14 => 39
  | 15 => 41
  | 16 => 45
  | 17 => 15
  | 18 => 21
  | 19 => 8
  | 20 => 18
  | 21 => 2
  | 22 => 61
  | 23 => 56
  | 24 => 14
  | _ => 0

/-- The 24 Keccak round constants, written in decimal. -/
def keccakRoundConstants : List Nat :=
  [1,
   32898,
   9223372036854808714,
   9223372039002292224,
   32907,
   2147483649,
   9223372039002292353,
   9223372036854808585,
   138,
   136,
   2147516425,
   2147483658,
   2147516555,
   9223372036854775947,
   9223372036854808713,
   9223372036854808579,
   9223372036854808578,
   9223372036854775936,
   32778,
   9223372039002259466,
   9223372039002292353,
   9223372036854808704,
   2147483649,
   9223372039002292232]

/-- Keccak theta step. -/
def keccakTheta (s : List Nat) : List Nat :=
  let c := (List.range 5).map (fun x =>
    keccakLane s x 0 ^^^ keccakLane s x 1 ^^^ keccakLane s x 2 ^^^
      keccakLane s x 3 ^^^ keccakLane s x 4)
  let d := (List.range 5).map (fun x =>
    (c.getD ((x + 4) % 5) 0) ^^^ rotl64 (c.getD ((x + 1) % 5) 0) 1)
  (List.range 25).map (fun i => s.getD i 0 ^^^ d.getD (i % 5) 0)

/-- Keccak rho and pi steps combined. -/
def keccakRhoPi (s : List Nat) : List Nat :=
  (List.range 25).foldl
    (fun acc i =>
      let x := i % 5
      let y := i / 5
      acc.set (y + 5 * ((2 * x + 3 * y) % 5))
        (rotl64 (s.getD i 0) (rhoOffset i)))
    (List.replicate 25 0)

/-- Keccak chi step. -/
def keccakChi (s : List Nat) : List Nat :=
  (List.range 25).map (fun i =>
    let x := i % 5
    let y := i / 5
    s.getD i 0 ^^^
      (((2 ^ 64 - 1) ^^^ keccakLane s ((x + 1) % 5) y) &&&
        keccakLane s ((x + 2) % 5) y))

/-- Keccak iota step. -/
def keccakIota (s : List Nat) (rc : Nat) : List Nat :=
  s.set 0 (s.getD 0 0 ^^^ rc)

/-- The Keccak-f[1600] permutation: 24 rounds of theta, rho-pi, chi,
iota. -/
def keccakF (s : List Nat) : List Nat :=
  keccakRoundConstants.foldl
    (fun st rc => keccakIota (keccakChi (keccakRhoPi (keccakTheta st))) rc) s

/-- Little-endian value of up to 8 bytes. -/
def leVal (bytes : List Nat) : Nat :=
  bytes.foldr (fun b acc => acc * 256 + b) 0

/-- Absorb one 136-byte block into the sponge state and permute. -/
def absorbBlock (s : List Nat) (block : List Nat) : List Nat :=
  let lanes := (List.range 17).map (fun j => leVal ((block.drop (8 * j)).take 8))
  keccakF ((List.range 25).map (fun i =>
    if i < 17 then s.getD i 0 ^^^ lanes.getD i 0 else s.getD i 0))

/-- Multi-rate padding with the Keccak 0x01 domain byte (0x81 when only
one byte of padding fits). -/
def padKeccak (m : List Nat) : List Nat :=
  let q := 136 - m.length % 136
  if q = 1 then m ++ [0x81]
  else m ++ [0x01] ++ List.replicate (q - 2) 0 ++ [0x80]

/-- Split into 136-byte blocks, fuel-driven for kernel evaluation. -/
def toBlocksF : Nat → List Nat → List (List Nat)
  | 0, _ => []
  | fuel + 1, l =>
    if l.length = 0 then [] else l.take 136 :: toBlocksF fuel (l.drop 136)

/-- keccak-256 of a byte string: absorb all padded blocks, squeeze the
first 32 bytes of the final state (lanes little-endian). -/
def keccak256 (msg : List Nat) : List Nat :=
  let padded := padKeccak msg
  let blocks := toBlocksF (padded.length + 1) padded
  let final := blocks.foldl absorbBlock (List.replicate 25 0)
  (final.take 4).flatMap (fun l =>
    (List.range 8).map (fun k => (l >>> (8 * k)) % 256))

/-- UTF-8 bytes of one character (noble's `utf8ToBytes`, per scalar
value). -/
def utf8Bytes (c : Char) : List Nat :=
  let n := c.toNat
  if n < 0x80 then [n]
  else if n < 0x800 then
    [0xC0 ||| (n >>> 6), 0x80 ||| (n &&& 0x3F)]
  else if n < 0x10000 then
    [0xE0 ||| (n >>> 12), 0x80 ||| ((n >>> 6) &&& 0x3F), 0x80 ||| (n &&& 0x3F)]
  else
    [0xF0 ||| (n >>> 18), 0x80 ||| ((n >>> 12) &&& 0x3F),
     0x80 ||| ((n >>> 6) &&& 0x3F), 0x80 ||| (n &&& 0x3F)]

/-- UTF-8 encoding of a string. -/
def utf8Encode (s : JStr) : List Nat := (s.map utf8Bytes).flatten

/-- Two lowercase hex digits of a byte (noble's `bytesToHex`, per
byte). -/
def byteToHex (b : Nat) : JStr := [hexDigitChar (b / 16 % 16), hexDigitChar (b % 16)]

/-- Lowercase hex string of a byte string. -/
def bytesToHex (bs : List Nat) : JStr := (bs.map byteToHex).flatten

/-- `namehash` from `packages/site/src/utils/ens.ts` (lines 13-26): the
empty name maps to the all-zero 32-byte value; otherwise split on `.`,
reverse the label order, and fold
`node := keccak256(node ++ keccak256(utf8(label)))` from the all-zero
accumulator. -/
def namehash (name : JStr) : JStr :=
  if name = [] then '0' :: 'x' :: bytesToHex (List.replicate 32 0)
  else
    '0' :: 'x' :: bytesToHex
      (((jsSplit '.' name).reverse).foldl
        (fun node label => keccak256 (node ++ keccak256 (utf8Encode label)))
        (List.replicate 32 0))

/-- JS `toLowerCase` on the ASCII range. -/
def jsToLower (s : JStr) : JStr := s.map Char.toLower

/-- `computeNamehash` from the site's second `ens.ts` revision (lines
178-191): ASCII-lowercase the name first, then the same fold. -/
def computeNamehash (name : JStr) : JStr :=
  if name = [] then '0' :: 'x' :: bytesToHex (List.replicate 32 0)
  else
    '0' :: 'x' :: bytesToHex
      (((jsSplit '.' (jsToLower name)).reverse).foldl
        (fun node label => keccak256 (node ++ keccak256 (utf8Encode label)))
        (List.replicate 32 0))

/-- A concrete two-step execution whose second step errored (used as the
retry witness input). -/
def sampleFailedExec : WorkflowExecution :=
  { workflowId := ['w'], startedAt := 5, currentStepIndex := 1,
    steps :=
      [{ stepId := ['a'], status := .success, txHash := some ['f', 'f'],
         chainId := some 1, errMsg := none, quotedOutput := some ['9'],
         quotedOutputDecimals := some 6 },
       { stepId := ['b'], status := .stepError, txHash := none,
         chainId := none, errMsg := some ['x'], quotedOutput := none,
         quotedOutputDecimals := none }],
    status := .failed }

end Surecast

namespace Surecast

/- ============================================================
   Theorems
   ============================================================ -/

theorem parseAmount_zero (d : Nat) : parseAmount ['0'] d = ['0'] := by
  unfold parseAmount
  simp only [jsSplit, jsSlice, jsPadEnd]
  have hz : ∀ n : Nat, (List.replicate n '0').dropWhile (fun c => c = '0') = [] := by
    intro n
    induction n with
    | zero => rfl
    | succ k ih => simp [List.replicate_succ, List.dropWhile, ih]
  simp [List.dropWhile, hz d]

/-- C3: for a step flagged to chain from the previous step at index `i > 0`,
any amount the resolution produces is bit-for-bit the previous step
execution's recorded quoted output (no decimal conversion), and when that
quoted output is absent the resolution fails with the chaining error
instead of producing an amount. -/
theorem claim3_chained_amount_verbatim (i : Nat) (hi : 0 < i)
    (prevStep : Option StepExecution) (amount : Option JStr) (decimals : Nat) :
    (∀ a, resolveStepAmount true i prevStep amount decimals = .ok a →
        prevStep.bind (fun p => p.quotedOutput) = some a) ∧
    (prevStep.bind (fun p => p.quotedOutput) = none →
        resolveStepAmount true i prevStep amount decimals = .error .chainingError) := by
  constructor
  · intro a ha
    unfold resolveStepAmount at ha
    rw [if_pos ⟨rfl, hi⟩] at ha
    revert ha
    unfold truthyStr
    cases hq : prevStep.bind (fun p => p.quotedOutput) with
    | none => intro ha; cases ha
    | some q =>
      simp only [Option.bind_some, Option.some_bind]
      by_cases hqe : q = []
      · rw [if_pos hqe]; intro ha; cases ha
      · rw [if_neg hqe]; intro ha; cases ha; rfl
  · intro hq
    unfold resolveStepAmount
    rw [if_pos ⟨rfl, hi⟩, hq]
    rfl

/-- Witness for C3 at a concrete input: index 1, previous step with quoted
output `777`. -/
theorem claim3_chained_amount_verbatim_witness :
    (∀ a, resolveStepAmount true 1
        (some { stepId := [], status := .success, txHash := none, chainId := none,
                errMsg := none, quotedOutput := some ['7', '7', '7'],
                quotedOutputDecimals := some 6 })
        (some ['1']) 6 = .ok a →
      (some { stepId := [], status := StepStatus.success, txHash := none, chainId := none,
              errMsg := none, quotedOutput := some ['7', '7', '7'],
              quotedOutputDecimals := some 6 } : Option StepExecution).bind
        (fun p => p.quotedOutput) = some a) ∧
    ((some { stepId := [], status := StepStatus.success, txHash := none, chainId := none,
             errMsg := none, quotedOutput := some ['7', '7', '7'],
             quotedOutputDecimals := some 6 } : Option StepExecution).bind
        (fun p => p.quotedOutput) = none →
      resolveStepAmount true 1
        (some { stepId := [], status := .success, txHash := none, chainId := none,
                errMsg := none, quotedOutput := some ['7', '7', '7'],
                quotedOutputDecimals := some 6 })
        (some ['1']) 6 = .error .chainingError) :=
  claim3_chained_amount_verbatim 1 (by decide) _ _ _

theorem jsMapIdx_getElem {α : Type} (f : Nat → α → α) (i k : Nat) (l : List α) :
    (jsMapIdx f i l)[k]? = (l[k]?).map (f (i + k)) := by
  induction l generalizing i k with
  | nil => simp [jsMapIdx]
  | cons x xs ih =>
    cases k with
    | zero => simp [jsMapIdx]
    | succ k =>
      have := ih (i + 1) k
      simp only [jsMapIdx, List.getElem?_cons_succ, this]
      have harith : i + 1 + k = i + (k + 1) := by omega
      rw [harith]

theorem jsFindIndex_isSome {α : Type} (p : α → Bool) (l : List α)
    (h : ∃ x ∈ l, p x = true) : ∃ j, jsFindIndex p l = some j := by
  induction l with
  | nil => simp at h
  | cons x xs ih =>
    by_cases hp : p x = true
    · exact ⟨0, by simp [jsFindIndex, hp]⟩
    · obtain ⟨y, hy, hpy⟩ := h
      rw [List.mem_cons] at hy
      rcases hy with hy | hy
      · exact absurd (hy ▸ hpy) hp
      · obtain ⟨j, hj⟩ := ih ⟨y, hy, hpy⟩
        exact ⟨j + 1, by simp [jsFindIndex, hp, hj]⟩

theorem jsFindIndex_spec {α : Type} (p : α → Bool) (l : List α) (j : Nat)
    (h : jsFindIndex p l = some j) :
    (∃ x, l[j]? = some x ∧ p x = true) ∧
    (∀ k, k < j → ∃ x, l[k]? = some x ∧ p x = false) := by
  induction l generalizing j with
  | nil => cases h
  | cons x xs ih =>
    by_cases hp : p x = true
    · simp [jsFindIndex, hp] at h
      subst h
      exact ⟨⟨x, by simp, hp⟩, fun k hk => absurd hk (by omega)⟩
    · cases hf : jsFindIndex p xs with
      | none => simp [jsFindIndex, hp, hf] at h
      | some j2 =>
        simp [jsFindIndex, hp, hf] at h
        subst h
        obtain ⟨⟨y, hy, hpy⟩, hlt⟩ := ih j2 hf
        refine ⟨⟨y, by simpa using hy, hpy⟩, ?_⟩
        intro k hk
        cases k with
        | zero => exact ⟨x, by simp, by simpa using hp⟩
        | succ k =>
          obtain ⟨z, hz, hpz⟩ := hlt k (by omega)
          exact ⟨z, by simpa using hz, hpz⟩

theorem isSuccess_eq_true {s : StepStatus} : isSuccess s = true ↔ s = .success := by
  cases s <;> simp [isSuccess]

/-- C2: on an execution with at least one non-`success` step,
retry-from-failure targets the first non-`success` index `j` (every
earlier step is a success), resets that step to `pending`, and leaves
every step before `j` wholly unchanged — in particular its recorded
transaction hash, chain id and quoted output. -/
theorem claim2_retry_preserves_earlier_steps (e : WorkflowExecution)
    (hs : ∃ s ∈ e.steps, s.status ≠ StepStatus.success) :
    ∃ e2 j, retryFromStep e = some (e2, j) ∧
      (∀ k, k < j → (e.steps[k]?).map StepExecution.status = some .success) ∧
      (e2.steps[j]?).map StepExecution.status = some .pending ∧
      (∀ k, k < j → e2.steps[k]? = e.steps[k]?) := by
  have hex : ∃ x ∈ e.steps, (!isSuccess x.status) = true := by
    obtain ⟨s, hmem, hne⟩ := hs
    refine ⟨s, hmem, ?_⟩
    simp [Bool.not_eq_true', ← Bool.not_eq_true, isSuccess_eq_true, hne]
  obtain ⟨j, hj⟩ := jsFindIndex_isSome _ _ hex
  obtain ⟨⟨x, hxj, _⟩, hlt⟩ := jsFindIndex_spec _ _ _ hj
  refine ⟨{ e with
            status := .running,
            steps := jsMapIdx
              (fun idx s => if j ≤ idx then resetStepForRetry s else s) 0 e.steps },
          j, ?_, ?_, ?_, ?_⟩
  · rw [retryFromStep, hj]
  · intro k hk
    obtain ⟨y, hy, hpy⟩ := hlt k hk
    have hys : y.status = .success := by
      rw [← isSuccess_eq_true]
      simpa [Bool.not_eq_true'] using hpy
    rw [hy]
    simp [hys]
  · show ((jsMapIdx _ 0 e.steps)[j]?).map StepExecution.status = some .pending
    rw [jsMapIdx_getElem, Nat.zero_add, hxj]
    simp [resetStepForRetry]
  · intro k hk
    show (jsMapIdx _ 0 e.steps)[k]? = e.steps[k]?
    rw [jsMapIdx_getElem, Nat.zero_add]
    obtain ⟨y, hy, _⟩ := hlt k hk
    rw [hy]
    simp [show ¬ j ≤ k by omega]

/-- Witness for C2 at a concrete two-step execution whose second step
errored: retry resets step 1 and leaves step 0 untouched. -/
theorem claim2_retry_preserves_earlier_steps_witness :
    ∃ e2 j,
      retryFromStep sampleFailedExec = some (e2, j) ∧
      (∀ k, k < j →
        (sampleFailedExec.steps[k]?).map StepExecution.status = some .success) ∧
      (e2.steps[j]?).map StepExecution.status = some .pending ∧
      (∀ k, k < j → e2.steps[k]? = sampleFailedExec.steps[k]?) :=
  claim2_retry_preserves_earlier_steps sampleFailedExec
    ⟨{ stepId := ['b'], status := .stepError, txHash := none,
       chainId := none, errMsg := some ['x'], quotedOutput := none,
       quotedOutputDecimals := none },
     by simp [sampleFailedExec], by simp⟩

/-- C1: in a 3-step workflow where step 0 succeeds and step 1 fails at the
quoting stage, running the loop from index 0 leaves step 0 `success`,
step 1 `error` carrying the failure message, step 2 untouched (still the
fresh `pending` record, never attempted), and the overall status
`failed`. -/
theorem claim1_halt_on_quote_failure (wf : Workflow) (now : Nat)
    (s0 s1 s2 : WorkflowStep) (hsteps : wf.steps = [s0, s1, s2])
    (outcome : Nat → StepOutcome)
    (amt0 : JStr) (dec0 : Nat) (cid0 : Nat) (hash0 : JStr) (msg : JStr)
    (ho0 : outcome 0 = .ok amt0 dec0 cid0 hash0)
    (ho1 : outcome 1 = .quoteFail msg) (hmsg : msg ≠ []) :
    ((runSteps outcome wf.steps.length 0 (startExecution wf now)).steps[0]?).map
        StepExecution.status = some .success ∧
    ((runSteps outcome wf.steps.length 0 (startExecution wf now)).steps[1]?).map
        StepExecution.status = some .stepError ∧
    ((runSteps outcome wf.steps.length 0 (startExecution wf now)).steps[1]?).map
        StepExecution.errMsg = some (some msg) ∧
    (runSteps outcome wf.steps.length 0 (startExecution wf now)).steps[2]? =
        some (initStepExecution s2.id) ∧
    ((runSteps outcome wf.steps.length 0 (startExecution wf now)).steps[2]?).map
        StepExecution.status = some .pending ∧
    (runSteps outcome wf.steps.length 0 (startExecution wf now)).status = .failed := by
  by_cases hc : cid0 = 0 <;>
    simp [runSteps, hsteps, startExecution, runStepsFrom, ho0, ho1,
      updateStepStatus, recordQuote, truthyStr, initStepExecution,
      isSuccess, isErrorStatus, hmsg, hc]

/-- Witness for C1 on a concrete 3-step workflow: step 0 succeeds, step 1
fails its quote with message `E`. -/
theorem claim1_halt_on_quote_failure_witness :
    ((runSteps sampleOutcome sampleWorkflow3.steps.length 0
        (startExecution sampleWorkflow3 0)).steps[0]?).map
        StepExecution.status = some .success ∧
    ((runSteps sampleOutcome sampleWorkflow3.steps.length 0
        (startExecution sampleWorkflow3 0)).steps[1]?).map
        StepExecution.status = some .stepError ∧
    ((runSteps sampleOutcome sampleWorkflow3.steps.length 0
        (startExecution sampleWorkflow3 0)).steps[1]?).map
        StepExecution.errMsg = some (some ['E']) ∧
    (runSteps sampleOutcome sampleWorkflow3.steps.length 0
        (startExecution sampleWorkflow3 0)).steps[2]? =
        some (initStepExecution ['s', '2']) ∧
    ((runSteps sampleOutcome sampleWorkflow3.steps.length 0
        (startExecution sampleWorkflow3 0)).steps[2]?).map
        StepExecution.status = some .pending ∧
    (runSteps sampleOutcome sampleWorkflow3.steps.length 0
        (startExecution sampleWorkflow3 0)).status = .failed :=
  claim1_halt_on_quote_failure sampleWorkflow3 0
    { id := ['s', '0'], type := ['s', 'w', 'a', 'p'], config := {} }
    { id := ['s', '1'], type := ['s', 'w', 'a', 'p'], config := {} }
    { id := ['s', '2'], type := ['s', 'w', 'a', 'p'], config := {} }
    rfl sampleOutcome ['1', '0'] 6 1 ['h'] ['E'] rfl rfl (by simp)

theorem take_app {α : Type} (A B : List α) (n : Nat) (h : A.length = n) :
    (A ++ B).take n = A := by
  subst h
  exact List.take_left A B

theorem drop_app {α : Type} (A B : List α) (n : Nat) (h : A.length = n) :
    (A ++ B).drop n = B := by
  subst h
  exact List.drop_left A B

theorem drop_app_add {α : Type} (A B : List α) (n k : Nat) (h : A.length = n) :
    (A ++ B).drop (n + k) = B.drop k := by
  rw [← List.drop_drop, drop_app A B n h]

theorem drop_then_drop {α : Type} (l : List α) (n m : Nat) :
    (l.drop n).drop m = l.drop (n + m) := by
  rw [List.drop_drop]

theorem parseHex_foldl_shift (b : JStr) (acc : Nat) :
    b.foldl (fun a c => a * 16 + hexVal c) acc =
      acc * 16 ^ b.length + b.foldl (fun a c => a * 16 + hexVal c) 0 := by
  induction b generalizing acc with
  | nil => simp
  | cons c bs ih =>
    rw [List.foldl_cons, List.foldl_cons, ih (acc * 16 + hexVal c), ih (0 * 16 + hexVal c)]
    simp [List.length_cons]
    ring

theorem parseHex_append (a b : JStr) :
    parseHex (a ++ b) = parseHex a * 16 ^ b.length + parseHex b := by
  unfold parseHex
  rw [List.foldl_append, parseHex_foldl_shift b (a.foldl _ 0)]

theorem parseHex_replicate_zero (k : Nat) : parseHex (List.replicate k '0') = 0 := by
  induction k with
  | zero => rfl
  | succ m ih =>
    rw [List.replicate_succ]
    unfold parseHex at ih ⊢
    rw [List.foldl_cons]
    have hz : hexVal '0' = 0 := by decide
    rw [hz]
    simpa using ih

theorem parseHex_pad_zero (k : Nat) (s : JStr) :
    parseHex (List.replicate k '0' ++ s) = parseHex s := by
  rw [parseHex_append, parseHex_replicate_zero]
  ring

theorem hexVal_hexDigitChar (m : Nat) (hm : m < 16) : hexVal (hexDigitChar m) = m := by
  interval_cases m <;> decide

theorem parseHex_natToHexAux (fuel : Nat) :
    ∀ n, n < 16 ^ fuel → parseHex (natToHexAux fuel n) = n := by
  induction fuel with
  | zero =>
    intro n h
    simp only [pow_zero, Nat.lt_one_iff] at h
    subst h
    rfl
  | succ f ih =>
    intro n h
    by_cases h16 : n < 16
    · unfold natToHexAux parseHex
      rw [if_pos h16]
      simpa using hexVal_hexDigitChar n h16
    · rw [natToHexAux, if_neg h16, parseHex_append]
      have hdiv : n / 16 < 16 ^ f := by
        refine Nat.div_lt_of_lt_mul ?_
        rw [pow_succ, Nat.mul_comm] at h
        exact h
      rw [ih _ hdiv]
      have hmod := hexVal_hexDigitChar (n % 16) (Nat.mod_lt _ (by norm_num))
      unfold parseHex
      simp only [List.foldl_cons, List.foldl_nil, List.length_cons, List.length_nil]
      rw [hmod]
      have := Nat.div_add_mod n 16
      simp only [pow_one, Nat.zero_mul, Nat.zero_add]
      omega

theorem nat_lt_16_pow_succ (n : Nat) : n < 16 ^ (n + 1) := by
  calc n < 2 ^ n := Nat.lt_two_pow n
    _ ≤ 16 ^ n := Nat.pow_le_pow_left (by norm_num) n
    _ ≤ 16 ^ (n + 1) := Nat.pow_le_pow_right (by norm_num) (Nat.le_succ n)

theorem parseHex_natToHex (n : Nat) : parseHex (natToHex n) = n :=
  parseHex_natToHexAux (n + 1) n (nat_lt_16_pow_succ n)

theorem parseHex_encodeUint256 (n : Nat) : parseHex (encodeUint256 n) = n := by
  unfold encodeUint256 jsPadStart
  rw [parseHex_pad_zero, parseHex_natToHex]

theorem length_natToHexAux_le (fuel : Nat) :
    ∀ n k, 0 < k → n < 16 ^ k → (natToHexAux fuel n).length ≤ k := by
  induction fuel with
  | zero => intro n k hk _; simp [natToHexAux]
  | succ f ih =>
    intro n k hk h
    by_cases h16 : n < 16
    · rw [natToHexAux, if_pos h16]
      simpa using hk
    · rw [natToHexAux, if_neg h16]
      have hk2 : 2 ≤ k := by
        by_contra hc
        have hk1 : k = 1 := by omega
        rw [hk1, pow_one] at h
        exact h16 h
      have hdiv : n / 16 < 16 ^ (k - 1) := by
        apply Nat.div_lt_of_lt_mul
        have : 16 ^ (k - 1) * 16 = 16 ^ k := by
          rw [← pow_succ]
          congr 1
          omega
        omega
      have := ih (n / 16) (k - 1) (by omega) hdiv
      rw [List.length_append]
      simp only [List.length_cons, List.length_nil]
      omega

theorem length_natToHex_le (n k : Nat) (hk : 0 < k) (h : n < 16 ^ k) :
    (natToHex n).length ≤ k :=
  length_natToHexAux_le (n + 1) n k hk h

theorem length_encodeUint256 (n : Nat) (h : n < 16 ^ 64) :
    (encodeUint256 n).length = 64 := by
  unfold encodeUint256 jsPadStart
  rw [List.length_append, List.length_replicate]
  have := length_natToHex_le n 64 (by norm_num) h
  omega

theorem length_toHex (s : JStr) (h : ∀ c ∈ s, c.toNat < 256) :
    (toHex s).length = 2 * s.length := by
  induction s with
  | nil => rfl
  | cons c cs ih =>
    have hc : (jsPadStart (natToHex c.toNat) 2 '0').length = 2 := by
      unfold jsPadStart
      rw [List.length_append, List.length_replicate]
      have : c.toNat < 16 ^ 2 := by
        have := h c (by simp)
        norm_num
        omega
      have := length_natToHex_le c.toNat 2 (by norm_num) this
      omega
    unfold toHex at ih ⊢
    rw [List.map_cons, List.flatten_cons, List.length_append, hc,
      ih (fun x hx => h x (by simp [hx]))]
    simp [List.length_cons]
    ring

theorem length_padRight (hx : JStr) (b : Nat) (h : hx.length ≤ 2 * b) :
    (padRight hx b).length = 2 * b := by
  unfold padRight jsPadEnd
  rw [List.length_append, List.length_replicate]
  omega

theorem le_padWordBytes (len : Nat) : len ≤ padWordBytes len := by
  unfold padWordBytes
  split <;> omega

theorem padWordBytes_le (len : Nat) : padWordBytes len ≤ len + 32 := by
  unfold padWordBytes
  split <;> omega

/-- C6: `encodeSetText` lays out selector, id word, offset-to-key word,
offset-to-value word, key block, value block; the key offset is 96 and
the value offset is 96 plus the key block's byte size, and following
either offset from the start of the parameter section (right after the
4-byte selector, i.e. not from the start of the whole payload) lands
exactly on the corresponding length-prefixed padded block, the value
block ending the payload. -/
theorem claim6_encode_set_text_layout (node key value : JStr)
    (hnode : (strip0x node).length = 64)
    (hkey : ∀ c ∈ key, c.toNat < 256) (hvalue : ∀ c ∈ value, c.toNat < 256)
    (hklen : key.length < 16 ^ 60) (hvlen : value.length < 16 ^ 60) :
    (encodeSetText node key value).take 10 = '0' :: 'x' :: setTextSelector ∧
    ((encodeSetText node key value).drop 10).take 64 = strip0x node ∧
    wordAt ((encodeSetText node key value).drop 10) 64 = 96 ∧
    wordAt ((encodeSetText node key value).drop 10) 128 =
      96 + (32 + padWordBytes key.length) ∧
    (((encodeSetText node key value).drop 10).drop (2 * 96)).take 64 =
      encodeUint256 key.length ∧
    (((encodeSetText node key value).drop 10).drop (2 * 96 + 64)).take
        (2 * padWordBytes key.length) =
      padRight (toHex key) (padWordBytes key.length) ∧
    (((encodeSetText node key value).drop 10).drop
        (2 * (96 + 32 + padWordBytes key.length))).take 64 =
      encodeUint256 value.length ∧
    ((encodeSetText node key value).drop 10).drop
        (2 * (96 + 32 + padWordBytes key.length) + 64) =
      padRight (toHex value) (padWordBytes value.length) := by
  have hpow : (16 : Nat) ^ 60 + 160 < 16 ^ 64 := by norm_num
  have hKO : (encodeUint256 96).length = 64 := length_encodeUint256 96 (by norm_num)
  have hpwbK := le_padWordBytes key.length
  have hpwbK2 := padWordBytes_le key.length
  have hpwbV := le_padWordBytes value.length
  have hpwbV2 := padWordBytes_le value.length
  have hVO : (encodeUint256 (96 + (32 + padWordBytes key.length))).length = 64 :=
    length_encodeUint256 _ (by omega)
  have hEKL : (encodeUint256 key.length).length = 64 :=
    length_encodeUint256 _ (by omega)
  have hEVL : (encodeUint256 value.length).length = 64 :=
    length_encodeUint256 _ (by omega)
  have hKP : (padRight (toHex key) (padWordBytes key.length)).length =
      2 * padWordBytes key.length := by
    refine length_padRight _ _ ?_
    rw [length_toHex key hkey]
    omega
  have hVP : (padRight (toHex value) (padWordBytes value.length)).length =
      2 * padWordBytes value.length := by
    refine length_padRight _ _ ?_
    rw [length_toHex value hvalue]
    omega
  have hparams : (encodeSetText node key value).drop 10 =
      strip0x node ++ (encodeUint256 96 ++
        (encodeUint256 (96 + (32 + padWordBytes key.length)) ++
          (encodeUint256 key.length ++
            (padRight (toHex key) (padWordBytes key.length) ++
              (encodeUint256 value.length ++
                padRight (toHex value) (padWordBytes value.length)))))) := by
    have h0 : (encodeSetText node key value).drop 10 =
        (setTextSelector ++ strip0x node ++ encodeUint256 96 ++
          encodeUint256 (96 + (32 + padWordBytes key.length)) ++
          (encodeUint256 key.length ++
            padRight (toHex key) (padWordBytes key.length)) ++
          (encodeUint256 value.length ++
            padRight (toHex value) (padWordBytes value.length))).drop 8 := rfl
    rw [h0]
    simp only [List.append_assoc]
    rw [drop_app setTextSelector _ 8 rfl]
  have hd64' : ((encodeSetText node key value).drop 10).drop 64 =
      encodeUint256 96 ++
        (encodeUint256 (96 + (32 + padWordBytes key.length)) ++
          (encodeUint256 key.length ++
            (padRight (toHex key) (padWordBytes key.length) ++
              (encodeUint256 value.length ++
                padRight (toHex value) (padWordBytes value.length))))) := by
    rw [hparams, drop_app _ _ 64 hnode]
  have hd128 : ((encodeSetText node key value).drop 10).drop 128 =
      encodeUint256 (96 + (32 + padWordBytes key.length)) ++
        (encodeUint256 key.length ++
          (padRight (toHex key) (padWordBytes key.length) ++
            (encodeUint256 value.length ++
              padRight (toHex value) (padWordBytes value.length)))) := by
    have h1 : (128 : Nat) = 64 + 64 := by norm_num
    rw [h1, ← drop_then_drop _ 64 64, hd64', drop_app _ _ 64 hKO]
  have hd192 : ((encodeSetText node key value).drop 10).drop 192 =
      encodeUint256 key.length ++
        (padRight (toHex key) (padWordBytes key.length) ++
          (encodeUint256 value.length ++
            padRight (toHex value) (padWordBytes value.length))) := by
    have h1 : (192 : Nat) = 128 + 64 := by norm_num
    rw [h1, ← drop_then_drop _ 128 64, hd128, drop_app _ _ 64 hVO]
  have hd256 : ((encodeSetText node key value).drop 10).drop 256 =
      padRight (toHex key) (padWordBytes key.length) ++
        (encodeUint256 value.length ++
          padRight (toHex value) (padWordBytes value.length)) := by
    have h1 : (256 : Nat) = 192 + 64 := by norm_num
    rw [h1, ← drop_then_drop _ 192 64, hd192, drop_app _ _ 64 hEKL]
  have hdVB : ((encodeSetText node key value).drop 10).drop
      (256 + 2 * padWordBytes key.length) =
      encodeUint256 value.length ++
        padRight (toHex value) (padWordBytes value.length) := by
    rw [← drop_then_drop _ 256 (2 * padWordBytes key.length), hd256,
      drop_app _ _ _ hKP]
  refine ⟨?_, ?_, ?_, ?_, ?_, ?_, ?_, ?_⟩
  · have h0 : (encodeSetText node key value).take 10 =
        '0' :: 'x' :: (setTextSelector ++ strip0x node ++ encodeUint256 96 ++
          encodeUint256 (96 + (32 + padWordBytes key.length)) ++
          (encodeUint256 key.length ++
            padRight (toHex key) (padWordBytes key.length)) ++
          (encodeUint256 value.length ++
            padRight (toHex value) (padWordBytes value.length))).take 8 := rfl
    rw [h0]
    simp only [List.append_assoc]
    rw [take_app setTextSelector _ 8 rfl]
  · rw [hparams]
    exact take_app _ _ 64 hnode
  · unfold wordAt
    rw [hd64', take_app _ _ 64 hKO, parseHex_encodeUint256]
  · unfold wordAt
    rw [hd128, take_app _ _ 64 hVO, parseHex_encodeUint256]
  · have h1 : 2 * 96 = 192 := by norm_num
    rw [h1, hd192]
    exact take_app _ _ 64 hEKL
  · have h1 : 2 * 96 + 64 = 256 := by norm_num
    rw [h1, hd256]
    exact take_app _ _ _ hKP
  · have h1 : 2 * (96 + 32 + padWordBytes key.length) =
        256 + 2 * padWordBytes key.length := by ring
    rw [h1, hdVB]
    exact take_app _ _ 64 hEVL
  · have h1 : 2 * (96 + 32 + padWordBytes key.length) + 64 =
        (256 + 2 * padWordBytes key.length) + 64 := by ring
    rw [h1, ← drop_then_drop _ (256 + 2 * padWordBytes key.length) 64, hdVB,
      drop_app _ _ 64 hEVL]

set_option maxRecDepth 40000 in
/-- Witness for C6 at a concrete input: a 32-byte id of zeros, key `k`,
value `vv`. -/
theorem claim6_encode_set_text_layout_witness :
    (encodeSetText (List.replicate 64 '0') ['k'] ['v', 'v']).take 10 =
        '0' :: 'x' :: setTextSelector ∧
    ((encodeSetText (List.replicate 64 '0') ['k'] ['v', 'v']).drop 10).take 64 =
        strip0x (List.replicate 64 '0') ∧
    wordAt ((encodeSetText (List.replicate 64 '0') ['k'] ['v', 'v']).drop 10) 64 = 96 ∧
    wordAt ((encodeSetText (List.replicate 64 '0') ['k'] ['v', 'v']).drop 10) 128 =
      96 + (32 + padWordBytes (List.length ['k'])) ∧
    (((encodeSetText (List.replicate 64 '0') ['k'] ['v', 'v']).drop 10).drop
        (2 * 96)).take 64 = encodeUint256 (List.length ['k']) ∧
    (((encodeSetText (List.replicate 64 '0') ['k'] ['v', 'v']).drop 10).drop
        (2 * 96 + 64)).take (2 * padWordBytes (List.length ['k'])) =
      padRight (toHex ['k']) (padWordBytes (List.length ['k'])) ∧
    (((encodeSetText (List.replicate 64 '0') ['k'] ['v', 'v']).drop 10).drop
        (2 * (96 + 32 + padWordBytes (List.length ['k'])))).take 64 =
      encodeUint256 (List.length ['v', 'v']) ∧
    ((encodeSetText (List.replicate 64 '0') ['k'] ['v', 'v']).drop 10).drop
        (2 * (96 + 32 + padWordBytes (List.length ['k'])) + 64) =
      padRight (toHex ['v', 'v']) (padWordBytes (List.length ['v', 'v'])) :=
  claim6_encode_set_text_layout (List.replicate 64 '0') ['k'] ['v', 'v']
    (by decide) (by decide) (by decide) (by norm_num) (by norm_num)

theorem takeWhile_of_all {α : Type} (p : α → Bool) (l : List α)
    (h : ∀ c ∈ l, p c = true) : l.takeWhile p = l := by
  induction l with
  | nil => rfl
  | cons x xs ih =>
    rw [List.takeWhile_cons, h x (by simp)]
    simp [ih (fun c hc => h c (by simp [hc]))]

theorem jsParseIntHex_of_hex (s : JStr) (hne : s ≠ [])
    (h : ∀ c ∈ s, isHexDigit c = true) :
    jsParseIntHex s = some (parseHex s) := by
  unfold jsParseIntHex
  rw [takeWhile_of_all _ _ h]
  exact if_neg hne

theorem jsSlice_length (s : JStr) (a b : Nat) :
    (jsSlice s a b).length = min b s.length - a := by
  simp [jsSlice]

theorem jsSlice_eq_drop_take (s : JStr) (a n : Nat) :
    jsSlice s a (a + n) = (s.drop a).take n := by
  unfold jsSlice
  rw [List.drop_take]
  congr 1
  omega

/-- C9: `decodeString` returns null both for inputs shorter than the
minimal well-formed response (offset word plus length word, 64 bytes) and
for a zero length word; otherwise it follows the head offset word to the
length word and takes exactly that many bytes.  The input is an arbitrary
hex-encoded byte string (every character a hex digit, no `0x` prefix). -/
theorem claim9_decode_string_result (h : JStr) (hp : strip0x h = h)
    (hhex : ∀ c ∈ h, isHexDigit c = true) :
    (h.length < 128 → decodeString h = none) ∧
    (128 ≤ h.length → ∀ off len,
      parseHex (h.take 64) * 2 = off →
      parseHex ((h.drop off).take 64) = len →
      ((len = 0 → off + 64 ≤ h.length → decodeString h = none) ∧
       (0 < len → off + 64 + len * 2 ≤ h.length →
         decodeString h =
           some (hexToChars (jsSlice h (off + 64) (off + 64 + len * 2))) ∧
         (hexToChars (jsSlice h (off + 64) (off + 64 + len * 2))).length = len))) := by
  constructor
  · intro hlt
    unfold decodeString
    rw [hp, if_pos hlt]
  · intro h128 off len hoff hlen
    have hword1 : jsParseIntHex (jsSlice h 0 64) = some (parseHex (h.take 64)) := by
      have he : jsSlice h 0 64 = h.take 64 := by simp [jsSlice]
      rw [he]
      refine jsParseIntHex_of_hex _ ?_ ?_
      · have : (h.take 64).length = 64 := by simp; omega
        intro hnil
        rw [hnil] at this
        simp at this
      · intro c hc
        exact hhex c (List.take_subset _ _ hc)
    have hdata : ∀ m, off + 64 + m ≤ h.length →
        jsParseIntHex (jsSlice h off (off + 64)) = some len := by
      intro m hm
      have he : jsSlice h off (off + 64) = (h.drop off).take 64 := by
        have := jsSlice_eq_drop_take h off 64
        simpa using this
      rw [he]
      have hlen64 : ((h.drop off).take 64).length = 64 := by simp; omega
      rw [jsParseIntHex_of_hex]
      · rw [hlen]
      · intro hnil
        rw [hnil] at hlen64
        simp at hlen64
      · intro c hc
        exact hhex c (List.drop_subset _ _ (List.take_subset _ _ hc))
    constructor
    · intro hz hbound
      unfold decodeString
      rw [hp, if_neg (by omega), hword1]
      simp only [hoff]
      rw [hdata 0 (by omega)]
      simp [hz]
    · intro hpos hbound
      constructor
      · unfold decodeString
        rw [hp, if_neg (by omega), hword1]
        simp only [hoff]
        rw [hdata (len * 2) hbound]
        simp [Nat.pos_iff_ne_zero.mp hpos]
      · unfold hexToChars
        rw [jsSlice_length]
        have hmin : min (off + 64 + len * 2) h.length = off + 64 + len * 2 := by omega
        rw [hmin]
        simp only [List.length_map, List.length_range]
        omega

set_option maxRecDepth 40000 in
/-- Witness for C9: the concrete `hello` response decodes to exactly its
five data bytes. -/
theorem claim9_decode_string_result_witness :
    (sampleAbiStringResult.length < 128 →
        decodeString sampleAbiStringResult = none) ∧
    (128 ≤ sampleAbiStringResult.length → ∀ off len,
      parseHex (sampleAbiStringResult.take 64) * 2 = off →
      parseHex ((sampleAbiStringResult.drop off).take 64) = len →
      ((len = 0 → off + 64 ≤ sampleAbiStringResult.length →
          decodeString sampleAbiStringResult = none) ∧
       (0 < len → off + 64 + len * 2 ≤ sampleAbiStringResult.length →
         decodeString sampleAbiStringResult =
           some (hexToChars (jsSlice sampleAbiStringResult (off + 64)
             (off + 64 + len * 2))) ∧
         (hexToChars (jsSlice sampleAbiStringResult (off + 64)
             (off + 64 + len * 2))).length = len))) :=
  claim9_decode_string_result sampleAbiStringResult (by decide) (by decide)

/-- C10: at step index 0 the chaining guard `stepIndex > 0` fails, so the
`useAllFromPrevious` flag is silently ignored: no chaining error is raised
and the amount is resolved from the fixed amount field, which defaults to
`"0"` when absent. -/
theorem claim10_first_step_flag_ignored
    (prevStep : Option StepExecution) (amount : Option JStr) (decimals : Nat) :
    resolveStepAmount true 0 prevStep amount decimals =
      .ok (parseAmount (amount.getD ['0']) decimals) ∧
    resolveStepAmount true 0 prevStep none decimals = .ok ['0'] := by
  constructor
  · unfold resolveStepAmount
    rw [if_neg (by simp)]
  · unfold resolveStepAmount
    rw [if_neg (by simp)]
    simp [parseAmount_zero]


theorem truthyStr_idem (o : Option JStr) : truthyStr (truthyStr o) = truthyStr o := by
  cases o with
  | none => rfl
  | some v =>
    by_cases hv : v = [] <;> simp [truthyStr, hv]

theorem truthyNat_idem (o : Option Nat) : truthyNat (truthyNat o) = truthyNat o := by
  cases o with
  | none => rfl
  | some v =>
    by_cases hv : v = 0 <;> simp [truthyNat, hv]

theorem truthyBool_idem (o : Option Bool) : truthyBool (truthyBool o) = truthyBool o := by
  cases o with
  | none => rfl
  | some v => cases v <;> simp [truthyBool]

theorem deserializeSteps_length (freshId : Nat → JStr) (cs : List CompactStep) :
    ∀ i, (deserializeSteps freshId i cs).length = cs.length := by
  induction cs with
  | nil => intro i; rfl
  | cons c cs ih => intro i; simp [deserializeSteps, ih (i + 1)]

theorem deserializeSteps_getElem (freshId : Nat → JStr) (cs : List CompactStep) :
    ∀ i k, (deserializeSteps freshId i cs)[k]? =
      (cs[k]?).map (deserializeStep freshId (i + k)) := by
  induction cs with
  | nil => intro i k; simp [deserializeSteps]
  | cons c cs ih =>
    intro i k
    cases k with
    | zero => simp [deserializeSteps]
    | succ k =>
      simp only [deserializeSteps, List.getElem?_cons_succ, ih (i + 1) k]
      have h1 : i + 1 + k = i + (k + 1) := by omega
      rw [h1]

/-- C7: deserializing a serialized workflow preserves the name, the step
count and order, each step's type tag, and every populated (truthy)
configuration field — from-token, to-token, from-chain, to-chain, amount
and the chain-from-previous flag — while omitted or default-valued fields
come back absent.  Step ids and timestamps are regenerated. -/
theorem claim7_serialize_round_trip (freshId : Nat → JStr) (now : Nat)
    (w : Workflow) :
    (deserializeWorkflow freshId now (serializeWorkflow w)).name = w.name ∧
    (deserializeWorkflow freshId now (serializeWorkflow w)).steps.length =
      w.steps.length ∧
    (∀ (i : Nat) (s s2 : WorkflowStep), w.steps[i]? = some s →
      (deserializeWorkflow freshId now (serializeWorkflow w)).steps[i]? = some s2 →
      (s2.type = s.type ∧
       s2.config.fromToken = truthyStr s.config.fromToken ∧
       s2.config.toToken = truthyStr s.config.toToken ∧
       s2.config.fromChain = truthyNat s.config.fromChain ∧
       s2.config.toChain = truthyNat s.config.toChain ∧
       s2.config.amount = truthyStr s.config.amount ∧
       s2.config.useAllFromPrevious = truthyBool s.config.useAllFromPrevious)) := by
  refine ⟨rfl, ?_, ?_⟩
  · show (deserializeSteps freshId 1 (w.steps.map _)).length = w.steps.length
    rw [deserializeSteps_length]
    exact List.length_map _ _
  · intro i s s2 hs hs2
    have h1 : (deserializeWorkflow freshId now (serializeWorkflow w)).steps[i]? =
        ((w.steps.map _)[i]?).map (deserializeStep freshId (1 + i)) :=
      deserializeSteps_getElem freshId _ 1 i
    rw [h1, List.getElem?_map, hs] at hs2
    simp only [Option.map_map, Option.map_some] at hs2
    have hs2' : s2 = deserializeStep freshId (1 + i)
        { t := s.type,
          ft := truthyStr s.config.fromToken,
          tt := truthyStr s.config.toToken,
          fc := truthyNat s.config.fromChain,
          tc := truthyNat s.config.toChain,
          a := truthyStr s.config.amount,
          all := truthyBool s.config.useAllFromPrevious } := by
      cases hs2
      rfl
    subst hs2'
    refine ⟨rfl, ?_, ?_, ?_, ?_, ?_, ?_⟩ <;>
      simp [deserializeStep, truthyStr_idem, truthyNat_idem, truthyBool_idem]

/-- Witness for C7 at a concrete two-step workflow (fixed amount on step
0, chain-from-previous flag on step 1). -/
theorem claim7_serialize_round_trip_witness :
    (deserializeWorkflow (fun n => [Char.ofNat (110 + n)]) 9
        (serializeWorkflow sampleWorkflowSer)).name = sampleWorkflowSer.name ∧
    (deserializeWorkflow (fun n => [Char.ofNat (110 + n)]) 9
        (serializeWorkflow sampleWorkflowSer)).steps.length =
      sampleWorkflowSer.steps.length ∧
    (∀ (i : Nat) (s s2 : WorkflowStep), sampleWorkflowSer.steps[i]? = some s →
      (deserializeWorkflow (fun n => [Char.ofNat (110 + n)]) 9
        (serializeWorkflow sampleWorkflowSer)).steps[i]? = some s2 →
      (s2.type = s.type ∧
       s2.config.fromToken = truthyStr s.config.fromToken ∧
       s2.config.toToken = truthyStr s.config.toToken ∧
       s2.config.fromChain = truthyNat s.config.fromChain ∧
       s2.config.toChain = truthyNat s.config.toChain ∧
       s2.config.amount = truthyStr s.config.amount ∧
       s2.config.useAllFromPrevious = truthyBool s.config.useAllFromPrevious)) :=
  claim7_serialize_round_trip (fun n => [Char.ofNat (110 + n)]) 9 sampleWorkflowSer


theorem take_append_le {α : Type} (A B : List α) (n : Nat) (h : n ≤ A.length) :
    (A ++ B).take n = A.take n := by
  rw [List.take_append_eq_append_take]
  have h0 : n - A.length = 0 := by omega
  rw [h0]
  simp

theorem drop_append_le {α : Type} (A B : List α) (n : Nat) (h : n ≤ A.length) :
    (A ++ B).drop n = A.drop n ++ B := by
  rw [List.drop_append_eq_append_drop]
  have h0 : n - A.length = 0 := by omega
  rw [h0]
  simp

theorem flatten_length_uniform {α : Type} (w : Nat) :
    ∀ L : List (List α), (∀ x ∈ L, x.length = w) →
      L.flatten.length = w * L.length := by
  intro L
  induction L with
  | nil => intro _; simp
  | cons x xs ih =>
    intro hw
    rw [List.flatten_cons, List.length_append, hw x (by simp),
      ih (fun y hy => hw y (by simp [hy]))]
    simp [List.length_cons]
    ring

theorem flatten_drop_uniform {α : Type} (w : Nat) :
    ∀ (k : Nat) (L : List (List α)), (∀ x ∈ L, x.length = w) →
      L.flatten.drop (w * k) = (L.drop k).flatten := by
  intro k
  induction k with
  | zero => intro L _; simp
  | succ k ih =>
    intro L hw
    cases L with
    | nil => simp
    | cons x xs =>
      rw [List.flatten_cons, List.drop_succ_cons]
      have harith : w * (k + 1) = w + w * k := by ring
      rw [harith, drop_app_add x xs.flatten w (w * k) (hw x (by simp))]
      exact ih xs (fun y hy => hw y (by simp [hy]))

theorem flatten_drop_sum {α : Type} :
    ∀ (k : Nat) (L : List (List α)),
      L.flatten.drop (((L.take k).map List.length).sum) = (L.drop k).flatten := by
  intro k
  induction k with
  | zero => intro L; simp
  | succ k ih =>
    intro L
    cases L with
    | nil => simp
    | cons x xs =>
      rw [List.take_succ_cons, List.map_cons, List.sum_cons, List.flatten_cons,
        List.drop_succ_cons, drop_app_add x xs.flatten x.length _ rfl]
      exact ih xs

theorem sum_map_double (l : List Nat) : (l.map (fun n => 2 * n)).sum = 2 * l.sum := by
  induction l with
  | nil => rfl
  | cons n ns ih => simp [List.sum_cons, ih]; ring

theorem sum_take_le (l : List Nat) (k : Nat) : (l.take k).sum ≤ l.sum := by
  conv_rhs => rw [← List.take_append_drop k l]
  rw [List.sum_append]
  omega

theorem multicallHeads_length (cs : List JStr) :
    ∀ off, (multicallHeads cs off).length = cs.length := by
  induction cs with
  | nil => intro off; rfl
  | cons c cs ih => intro off; simp [multicallHeads, ih]

theorem multicallHeads_drop (cs : List JStr) :
    ∀ off k, (multicallHeads cs off).drop k =
      multicallHeads (cs.drop k) (off + ((cs.take k).map blockBytes).sum) := by
  induction cs with
  | nil => intro off k; simp [multicallHeads]
  | cons c cs ih =>
    intro off k
    cases k with
    | zero => simp [multicallHeads]
    | succ k =>
      rw [List.drop_succ_cons]
      show (multicallHeads cs (off + blockBytes c)).drop k = _
      rw [ih (off + blockBytes c) k, List.take_succ_cons, List.map_cons,
        List.sum_cons]
      congr 1
      omega

theorem multicallHeads_all_length (cs : List JStr) :
    ∀ off, off + (cs.map blockBytes).sum < 16 ^ 64 →
      ∀ x ∈ multicallHeads cs off, x.length = 64 := by
  induction cs with
  | nil => intro off _ x hx; simp [multicallHeads] at hx
  | cons c cs ih =>
    intro off hb x hx
    rw [List.map_cons, List.sum_cons] at hb
    rcases (List.mem_cons).mp hx with hx | hx
    · subst hx
      exact length_encodeUint256 off (by omega)
    · exact ih (off + blockBytes c) (by omega) x hx

theorem tailBlock_length (c : JStr) (heven : c.length % 2 = 0)
    (hb : c.length / 2 < 16 ^ 64) :
    (tailBlock c).length = 2 * blockBytes c := by
  unfold tailBlock blockBytes
  rw [List.length_append, length_encodeUint256 _ hb, length_padRight]
  · ring
  · have := le_padWordBytes (c.length / 2)
    omega

theorem blockBytes_ge_half (c : JStr) : c.length / 2 ≤ blockBytes c := by
  unfold blockBytes
  have := le_padWordBytes (c.length / 2)
  omega

theorem multicall_head_read (rcs : List JStr) (P : JStr)
    (hP : P.drop 128 =
      (multicallHeads rcs (rcs.length * 32)).flatten ++ (rcs.map tailBlock).flatten)
    (hsize : 32 * rcs.length + (rcs.map blockBytes).sum < 16 ^ 64)
    (i : Nat) (hi : i < rcs.length) :
    wordAt P (128 + 64 * i) =
      rcs.length * 32 + ((rcs.take i).map blockBytes).sum := by
  have hHall : ∀ x ∈ multicallHeads rcs (rcs.length * 32), x.length = 64 :=
    multicallHeads_all_length rcs _ (by omega)
  have hHlen : (multicallHeads rcs (rcs.length * 32)).flatten.length =
      64 * rcs.length := by
    rw [flatten_length_uniform 64 _ hHall, multicallHeads_length]
  have hoff : rcs.length * 32 + ((rcs.take i).map blockBytes).sum < 16 ^ 64 := by
    have := sum_take_le (rcs.map blockBytes) i
    rw [← List.map_take] at this
    omega
  unfold wordAt
  rw [← drop_then_drop _ 128 (64 * i), hP,
    drop_append_le _ _ (64 * i) (by omega),
    flatten_drop_uniform 64 i _ hHall, multicallHeads_drop,
    List.drop_eq_getElem_cons hi]
  show parseHex ((((encodeUint256 (rcs.length * 32 + ((rcs.take i).map blockBytes).sum) ::
      multicallHeads (rcs.drop (i + 1))
        ((rcs.length * 32 + ((rcs.take i).map blockBytes).sum) +
          blockBytes (rcs[i]))).flatten ++
      (rcs.map tailBlock).flatten).take 64)) = _
  rw [List.flatten_cons, List.append_assoc,
    take_app _ _ 64 (length_encodeUint256 _ hoff), parseHex_encodeUint256]

theorem multicall_tail_at (rcs : List JStr) (P : JStr)
    (hP : P.drop 128 =
      (multicallHeads rcs (rcs.length * 32)).flatten ++ (rcs.map tailBlock).flatten)
    (heven : ∀ c ∈ rcs, c.length % 2 = 0)
    (hsize : 32 * rcs.length + (rcs.map blockBytes).sum < 16 ^ 64)
    (i : Nat) (hi : i < rcs.length) :
    P.drop (128 + 2 * (rcs.length * 32 + ((rcs.take i).map blockBytes).sum)) =
      tailBlock (rcs[i]) ++ ((rcs.drop (i + 1)).map tailBlock).flatten := by
  have hHall : ∀ x ∈ multicallHeads rcs (rcs.length * 32), x.length = 64 :=
    multicallHeads_all_length rcs _ (by omega)
  have hHlen : (multicallHeads rcs (rcs.length * 32)).flatten.length =
      64 * rcs.length := by
    rw [flatten_length_uniform 64 _ hHall, multicallHeads_length]
  have hblock : ∀ c ∈ rcs, c.length / 2 < 16 ^ 64 := by
    intro c hc
    have h1 := blockBytes_ge_half c
    have h2 := List.single_le_sum (fun (n : Nat) _ => Nat.zero_le n)
      (blockBytes c) (List.mem_map_of_mem blockBytes hc)
    omega
  have hTlen : (((rcs.map tailBlock).take i).map List.length).sum =
      2 * ((rcs.take i).map blockBytes).sum := by
    rw [← List.map_take, List.map_map]
    have hmc : List.map (List.length ∘ tailBlock) (List.take i rcs) =
        List.map ((fun n => 2 * n) ∘ blockBytes) (List.take i rcs) :=
      List.map_congr_left (fun c hc =>
        tailBlock_length c (heven c (List.mem_of_mem_take hc))
          (hblock c (List.mem_of_mem_take hc)))
    rw [hmc, ← List.map_map, sum_map_double]
  have harith : 128 + 2 * (rcs.length * 32 + ((rcs.take i).map blockBytes).sum) =
      128 + (64 * rcs.length + 2 * ((rcs.take i).map blockBytes).sum) := by ring
  rw [harith, ← drop_then_drop _ 128 _, hP,
    drop_app_add _ _ (64 * rcs.length) _ hHlen, ← hTlen, flatten_drop_sum i,
    ← List.map_drop, List.drop_eq_getElem_cons hi, List.map_cons, List.flatten_cons]

set_option maxHeartbeats 1000000 in
/-- C4: decoding `encodeMulticall` under the documented layout (selector,
offset-to-array, array length, N offset words relative to the start of
the offset-word table, N length-prefixed padded blocks) reproduces the
original list of call payloads unchanged and in order, for any number of
calls.  Payloads are proper hex byte strings (even length; the encoder
itself strips any `0x` prefix, so payloads are compared after that
strip), and the whole encoding fits inside 32-byte offset words. -/
theorem claim4_multicall_round_trip (calls : List JStr)
    (heven : ∀ c ∈ calls, (strip0x c).length % 2 = 0)
    (hsize : 32 * calls.length + ((calls.map strip0x).map blockBytes).sum < 16 ^ 64) :
    decodeMulticallPerSpec (encodeMulticall calls) = calls.map strip0x := by
  have hevenr : ∀ c ∈ calls.map strip0x, c.length % 2 = 0 := by
    intro c hc
    obtain ⟨c0, hc0, rfl⟩ := List.mem_map.mp hc
    exact heven c0 hc0
  have hNlen : (calls.map strip0x).length = calls.length := List.length_map _ _
  have hsize2 : 32 * (calls.map strip0x).length +
      ((calls.map strip0x).map blockBytes).sum < 16 ^ 64 := by
    rw [hNlen]; exact hsize
  have hHall : ∀ x ∈ multicallHeads (calls.map strip0x)
      ((calls.map strip0x).length * 32), x.length = 64 :=
    multicallHeads_all_length _ _ (by omega)
  have hparams : (strip0x (encodeMulticall calls)).drop 8 =
      encodeUint256 32 ++ (encodeUint256 (calls.map strip0x).length ++
        ((multicallHeads (calls.map strip0x) ((calls.map strip0x).length * 32)).flatten ++
          ((calls.map strip0x).map tailBlock).flatten)) := by
    have h0 : (strip0x (encodeMulticall calls)).drop 8 =
        (multicallSelector ++ encodeUint256 32 ++
          encodeUint256 (calls.map strip0x).length ++
          (multicallHeads (calls.map strip0x) ((calls.map strip0x).length * 32)).flatten ++
          ((calls.map strip0x).map tailBlock).flatten).drop 8 := rfl
    rw [h0]
    simp only [List.append_assoc]
    rw [drop_app multicallSelector _ 8 rfl]
  have hN16 : (calls.map strip0x).length < 16 ^ 64 := by omega
  have hu32len : (encodeUint256 32).length = 64 := length_encodeUint256 32 (by norm_num)
  have huNlen : (encodeUint256 (calls.map strip0x).length).length = 64 :=
    length_encodeUint256 _ hN16
  have hd128 : ((strip0x (encodeMulticall calls)).drop 8).drop 128 =
      (multicallHeads (calls.map strip0x) ((calls.map strip0x).length * 32)).flatten ++
        ((calls.map strip0x).map tailBlock).flatten := by
    have h1 : (128 : Nat) = 64 + 64 := by norm_num
    rw [h1, ← drop_then_drop _ 64 64, hparams, drop_app _ _ 64 hu32len,
      drop_app _ _ 64 huNlen]
  have harr : wordAt ((strip0x (encodeMulticall calls)).drop 8) 0 = 32 := by
    unfold wordAt
    rw [List.drop_zero, hparams, take_app _ _ 64 hu32len, parseHex_encodeUint256]
  have hn : wordAt ((strip0x (encodeMulticall calls)).drop 8) 64 =
      (calls.map strip0x).length := by
    unfold wordAt
    rw [hparams, drop_app _ _ 64 hu32len, take_app _ _ 64 huNlen,
      parseHex_encodeUint256]
  have hdec : decodeMulticallPerSpec (encodeMulticall calls) =
      (List.range (calls.map strip0x).length).map (fun i =>
        ((strip0x (encodeMulticall calls)).drop 8).drop
            (128 + wordAt ((strip0x (encodeMulticall calls)).drop 8) (128 + 64 * i) * 2
              + 64) |>.take
          (wordAt ((strip0x (encodeMulticall calls)).drop 8)
            (128 + wordAt ((strip0x (encodeMulticall calls)).drop 8) (128 + 64 * i) * 2)
            * 2)) := by
    unfold decodeMulticallPerSpec
    simp only [harr, hn]
  rw [hdec]
  refine List.ext_getElem? (fun i => ?_)
  rw [List.getElem?_map]
  rcases Nat.lt_or_ge i (calls.map strip0x).length with hi | hi
  · rw [List.getElem?_range hi, List.getElem?_eq_getElem hi,
      show ∀ (f : Nat → JStr) (a : Nat), Option.map f (some a) = some (f a)
        from fun _ _ => rfl]
    refine congrArg some ?_
    have hhead := multicall_head_read (calls.map strip0x)
      ((strip0x (encodeMulticall calls)).drop 8) hd128 hsize2 i hi
    have htail := multicall_tail_at (calls.map strip0x)
      ((strip0x (encodeMulticall calls)).drop 8) hd128 hevenr hsize2 i hi
    have hci : (calls.map strip0x)[i] ∈ calls.map strip0x := List.getElem_mem hi
    have hcieven : ((calls.map strip0x)[i]).length % 2 = 0 := hevenr _ hci
    have hcibound : ((calls.map strip0x)[i]).length / 2 < 16 ^ 64 := by
      have h1 := blockBytes_ge_half ((calls.map strip0x)[i])
      have h2 := List.single_le_sum (fun (n : Nat) _ => Nat.zero_le n)
        (blockBytes ((calls.map strip0x)[i]))
        (List.mem_map_of_mem blockBytes hci)
      omega
    have hulen : (encodeUint256 (((calls.map strip0x)[i]).length / 2)).length = 64 :=
      length_encodeUint256 _ hcibound
    have hword : wordAt ((strip0x (encodeMulticall calls)).drop 8)
        (128 + wordAt ((strip0x (encodeMulticall calls)).drop 8) (128 + 64 * i) * 2) =
        ((calls.map strip0x)[i]).length / 2 := by
      rw [hhead]
      unfold wordAt
      rw [Nat.mul_comm ((calls.map strip0x).length * 32 +
        (((calls.map strip0x).take i).map blockBytes).sum) 2, htail]
      unfold tailBlock
      rw [List.append_assoc, take_app _ _ 64 hulen, parseHex_encodeUint256]
    rw [hword, hhead]
    have harith2 : 128 + ((calls.map strip0x).length * 32 +
        (((calls.map strip0x).take i).map blockBytes).sum) * 2 + 64 =
        128 + 2 * ((calls.map strip0x).length * 32 +
          (((calls.map strip0x).take i).map blockBytes).sum) + 64 := by ring
    rw [harith2, ← drop_then_drop _ _ 64, htail]
    unfold tailBlock
    rw [List.append_assoc, drop_app _ _ 64 hulen]
    unfold padRight jsPadEnd
    rw [List.append_assoc]
    have hev2 : ((calls.map strip0x)[i]).length / 2 * 2 =
        ((calls.map strip0x)[i]).length := by omega
    rw [hev2, take_app _ _ _ rfl]
  · rw [List.getElem?_eq_none (by rw [List.length_range]; omega),
      List.getElem?_eq_none (by omega)]
    simp


set_option maxRecDepth 100000 in
/-- Witness for C4 with three concrete calls: decoding the encoding
yields the calls unchanged and in order. -/
theorem claim4_multicall_round_trip_witness :
    decodeMulticallPerSpec (encodeMulticall sampleCalls) =
      sampleCalls.map strip0x :=
  claim4_multicall_round_trip sampleCalls (by decide) (by decide)


theorem natVal_foldl_shift (b : JStr) (acc : Nat) :
    b.foldl (fun a c => a * 10 + digitVal c) acc =
      acc * 10 ^ b.length + b.foldl (fun a c => a * 10 + digitVal c) 0 := by
  induction b generalizing acc with
  | nil => simp
  | cons c bs ih =>
    rw [List.foldl_cons, List.foldl_cons, ih (acc * 10 + digitVal c),
      ih (0 * 10 + digitVal c)]
    simp [List.length_cons]
    ring

theorem natVal_append (a b : JStr) :
    natVal (a ++ b) = natVal a * 10 ^ b.length + natVal b := by
  unfold natVal
  rw [List.foldl_append, natVal_foldl_shift b (a.foldl _ 0)]

theorem natVal_cons (c : Char) (s : JStr) :
    natVal (c :: s) = digitVal c * 10 ^ s.length + natVal s := by
  have h := natVal_append [c] s
  simpa [natVal, digitVal] using h

theorem digitVal_le (c : Char) (h : isDigitChar c = true) : digitVal c ≤ 9 := by
  unfold isDigitChar at h
  rw [decide_eq_true_iff] at h
  unfold digitVal
  have h0 : ('0').toNat = 48 := rfl
  omega

theorem natVal_lt (s : JStr) (h : ∀ c ∈ s, isDigitChar c = true) :
    natVal s < 10 ^ s.length := by
  induction s with
  | nil => norm_num [natVal]
  | cons c cs ih =>
    rw [natVal_cons, List.length_cons, pow_succ]
    have h1 := digitVal_le c (h c (by simp))
    have h2 := ih (fun x hx => h x (by simp [hx]))
    nlinarith [pow_pos (show 0 < 10 by norm_num) cs.length]

theorem natVal_replicate_zero (k : Nat) : natVal (List.replicate k '0') = 0 := by
  induction k with
  | zero => rfl
  | succ m ih =>
    rw [List.replicate_succ, natVal_cons, ih]
    simp [digitVal]

theorem natVal_zero_pad (k : Nat) (s : JStr) :
    natVal (List.replicate k '0' ++ s) = natVal s := by
  rw [natVal_append, natVal_replicate_zero]
  ring

theorem natVal_dropWhile_zero (s : JStr) :
    natVal (s.dropWhile (fun c => c = '0')) = natVal s := by
  induction s with
  | nil => rfl
  | cons c cs ih =>
    by_cases hc : c = '0'
    · subst hc
      rw [List.dropWhile_cons_of_pos (by simp), ih, natVal_cons]
      simp [digitVal]
    · rw [List.dropWhile_cons_of_neg (by simp [hc])]

theorem mem_takeWhile_pred {α : Type} (p : α → Bool) :
    ∀ l : List α, ∀ x ∈ l.takeWhile p, p x = true := by
  intro l
  induction l with
  | nil => intro x hx; simp [List.takeWhile] at hx
  | cons a as ih =>
    intro x hx
    rw [List.takeWhile_cons] at hx
    by_cases hp : p a = true
    · rw [if_pos hp] at hx
      rcases List.mem_cons.mp hx with h | h
      · subst h; exact hp
      · exact ih x h
    · rw [if_neg hp] at hx
      simp at hx

theorem trim_decomp (s : JStr) :
    s = trimTrailingZeros s ++
      List.replicate (s.length - (trimTrailingZeros s).length) '0' := by
  unfold trimTrailingZeros
  have h1 := List.takeWhile_append_dropWhile
    (p := fun c => decide (c = '0')) (l := s.reverse)
  have ht : s.reverse.takeWhile (fun c => decide (c = '0')) =
      List.replicate (s.reverse.takeWhile (fun c => decide (c = '0'))).length '0' := by
    apply List.eq_replicate_of_mem
    intro b hb
    exact of_decide_eq_true (mem_takeWhile_pred _ _ b hb)
  have h2 : s = (s.reverse.dropWhile (fun c => decide (c = '0'))).reverse ++
      (s.reverse.takeWhile (fun c => decide (c = '0'))).reverse := by
    have h4 := congrArg List.reverse h1
    rw [List.reverse_append, List.reverse_reverse] at h4
    exact h4.symm
  have hlen : (s.reverse.dropWhile (fun c => decide (c = '0'))).reverse.length +
      (s.reverse.takeWhile (fun c => decide (c = '0'))).length = s.length := by
    have h3 := congrArg List.length h2
    simp only [List.length_append, List.length_reverse] at h3
    simp only [List.length_reverse]
    omega
  conv_lhs => rw [h2]
  congr 1
  rw [ht, List.reverse_replicate]
  congr 1
  omega

theorem trim_subset (s : JStr) : ∀ c ∈ trimTrailingZeros s, c ∈ s := by
  intro c hc
  have h2 : c ∈ trimTrailingZeros s ++
      List.replicate (s.length - (trimTrailingZeros s).length) '0' :=
    List.mem_append_left _ hc
  rw [← trim_decomp s] at h2
  exact h2

theorem trim_length_le (s : JStr) : (trimTrailingZeros s).length ≤ s.length := by
  have := congrArg List.length (trim_decomp s)
  simp at this
  omega

theorem natVal_trim (s : JStr) :
    natVal s = natVal (trimTrailingZeros s) *
      10 ^ (s.length - (trimTrailingZeros s).length) := by
  conv_lhs => rw [trim_decomp s]
  rw [natVal_append, natVal_replicate_zero, List.length_replicate]
  ring

theorem jsSplit_no_sep (sep : Char) (s : JStr) (h : sep ∉ s) :
    jsSplit sep s = [s] := by
  induction s with
  | nil => rfl
  | cons c cs ih =>
    have hc : ¬(c = sep) := by
      intro he
      exact h (he ▸ List.mem_cons_self c cs)
    rw [jsSplit]
    simp only [if_neg hc, ih (fun hm => h (List.mem_cons_of_mem c hm))]

theorem jsSplit_dot_append (I F : JStr) (hI : ('.') ∉ I) :
    jsSplit '.' (I ++ '.' :: F) = I :: jsSplit '.' F := by
  induction I with
  | nil =>
    rw [List.nil_append, jsSplit]
    simp
  | cons c I2 ih =>
    have hc : ¬(c = '.') := by
      intro he
      exact hI (he ▸ List.mem_cons_self c I2)
    rw [List.cons_append, jsSplit]
    simp only [if_neg hc, ih (fun hm => hI (List.mem_cons_of_mem c hm))]

theorem no_dot_of_digits (s : JStr) (h : ∀ c ∈ s, isDigitChar c = true) :
    ('.') ∉ s := by
  intro hmem
  exact absurd (h _ hmem) (by decide)

theorem decValue_no_dot (X : JStr) (h : ('.') ∉ X) : decValue X = natVal X := by
  unfold decValue
  rw [jsSplit_no_sep _ _ h]
  simp [natVal]

theorem decValue_dot (Ip T : JStr) (hI : ('.') ∉ Ip) (hT : ('.') ∉ T) :
    decValue (Ip ++ '.' :: T) = natVal Ip + natVal T / 10 ^ T.length := by
  unfold decValue
  rw [jsSplit_dot_append _ _ hI, jsSplit_no_sep _ _ hT]
  simp



theorem parseAmount_eq_dot (I F : JStr) (d : Nat) (hI : ('.') ∉ I)
    (hF : ('.') ∉ F) (hFd : F.length ≤ d) :
    parseAmount (I ++ '.' :: F) d =
      (if (I ++ (F ++ List.replicate (d - F.length) '0')).dropWhile
          (fun c => c = '0') = [] then ['0']
       else (I ++ (F ++ List.replicate (d - F.length) '0')).dropWhile
          (fun c => c = '0')) := by
  unfold parseAmount
  rw [jsSplit_dot_append _ _ hI, jsSplit_no_sep _ _ hF]
  have hfrac : jsSlice (jsPadEnd F d '0') 0 d =
      F ++ List.replicate (d - F.length) '0' := by
    unfold jsSlice jsPadEnd
    rw [List.drop_zero]
    apply List.take_of_length_le
    simp
    omega
  show (if (I ++ jsSlice (jsPadEnd F d '0') 0 d).dropWhile
      (fun c => c = '0') = [] then ['0']
    else (I ++ jsSlice (jsPadEnd F d '0') 0 d).dropWhile (fun c => c = '0')) = _
  rw [hfrac]

theorem format_value (A : JStr) (d : Nat)
    (hdig : ∀ c ∈ A, isDigitChar c = true)
    (hmod : natVal A % 10 ^ (d - 4) = 0) :
    decValue (formatTokenAmount A d) = (natVal A : ℚ) / 10 ^ d := by
  by_cases hA : A = [] ∨ A = ['0']
  · have hA0 : natVal A = 0 := by
      rcases hA with h | h <;> subst h <;> decide
    unfold formatTokenAmount
    rw [if_pos hA, hA0]
    rw [decValue_no_dot ['0'] (by decide)]
    norm_num
    decide
  · have hp9 : (0:Nat) < 10 ^ d := pow_pos (by norm_num) d
    -- the padded string and its pieces
    have hpads : jsPadStart A (d + 1) '0' =
        List.replicate (d + 1 - A.length) '0' ++ A := rfl
    have hplen : (jsPadStart A (d + 1) '0').length =
        (d + 1 - A.length) + A.length := by
      rw [hpads]
      simp
    have hpadval : natVal (jsPadStart A (d + 1) '0') = natVal A := by
      rw [hpads]
      exact natVal_zero_pad _ _
    have hpaddig : ∀ c ∈ jsPadStart A (d + 1) '0', isDigitChar c = true := by
      intro c hc
      rw [hpads] at hc
      rcases List.mem_append.mp hc with h | h
      · rw [List.eq_of_mem_replicate h]
        decide
      · exact hdig c h
    have hLge : d + 1 ≤ (jsPadStart A (d + 1) '0').length := by
      rw [hplen]
      omega
    set padded := jsPadStart A (d + 1) '0' with hpadded
    set L := padded.length with hLdef
    -- the integer part is nonempty
    have hip_eq : jsSlice padded 0 (L - d) = padded.take (L - d) := by
      simp [jsSlice]
    have hiplen : (padded.take (L - d)).length = L - d := by
      simp [hLdef]
    have hipne : jsSlice padded 0 (L - d) ≠ [] := by
      rw [hip_eq]
      intro hnil
      rw [hnil] at hiplen
      simp at hiplen
      omega
    -- unfold the function body
    have hbody : formatTokenAmount A d =
        (if trimTrailingZeros ((padded.drop (L - d)).take 4) = []
         then padded.take (L - d)
         else padded.take (L - d) ++ '.' ::
           trimTrailingZeros ((padded.drop (L - d)).take 4)) := by
      unfold formatTokenAmount
      rw [if_neg hA]
      simp only [← hpadded, ← hLdef, hip_eq, if_neg (hip_eq ▸ hipne)]
      have hfr : jsSlice (padded.drop (L - d)) 0 4 = (padded.drop (L - d)).take 4 := by
        simp [jsSlice]
      rw [hfr]
    -- value bookkeeping
    have hsplit := List.take_append_drop (L - d) padded
    have hfr_len : (padded.drop (L - d)).length = d := by
      simp [hLdef]
      omega
    have hipdig : ∀ c ∈ padded.take (L - d), isDigitChar c = true :=
      fun c hc => hpaddig c (List.take_subset _ _ hc)
    have hfrdig : ∀ c ∈ padded.drop (L - d), isDigitChar c = true :=
      fun c hc => hpaddig c (List.drop_subset _ _ hc)
    have hval : natVal A = natVal (padded.take (L - d)) * 10 ^ d +
        natVal (padded.drop (L - d)) := by
      conv_lhs => rw [← hpadval, ← hsplit]
      rw [natVal_append, hfr_len]
    have hfrlt : natVal (padded.drop (L - d)) < 10 ^ d := by
      have := natVal_lt _ hfrdig
      rwa [hfr_len] at this
    -- split the fraction at 4 digits
    have hffsplit := List.take_append_drop 4 (padded.drop (L - d))
    have hrest_len : ((padded.drop (L - d)).drop 4).length = d - 4 := by
      simp [hfr_len]
      omega
    have htk_len : ((padded.drop (L - d)).take 4).length = min 4 d := by
      simp [hfr_len]
    have hfval : natVal (padded.drop (L - d)) =
        natVal ((padded.drop (L - d)).take 4) * 10 ^ (d - 4) +
          natVal ((padded.drop (L - d)).drop 4) := by
      conv_lhs => rw [← hffsplit]
      rw [natVal_append, hrest_len]
    have hrestdig : ∀ c ∈ (padded.drop (L - d)).drop 4, isDigitChar c = true :=
      fun c hc => hfrdig c (List.drop_subset _ _ hc)
    have hrestlt : natVal ((padded.drop (L - d)).drop 4) < 10 ^ (d - 4) := by
      have := natVal_lt _ hrestdig
      rwa [hrest_len] at this
    have hrest0 : natVal ((padded.drop (L - d)).drop 4) = 0 := by
      have hdvd : 10 ^ (d - 4) ∣ 10 ^ d := pow_dvd_pow 10 (by omega)
      have h1 : natVal A % 10 ^ (d - 4) =
          natVal ((padded.drop (L - d)).drop 4) % 10 ^ (d - 4) := by
        rw [hval, hfval]
        obtain ⟨q, hq⟩ := hdvd
        rw [hq]
        rw [show natVal (padded.take (L - d)) * (10 ^ (d - 4) * q) +
            (natVal ((padded.drop (L - d)).take 4) * 10 ^ (d - 4) +
              natVal ((padded.drop (L - d)).drop 4)) =
            natVal ((padded.drop (L - d)).drop 4) +
              (natVal (padded.take (L - d)) * q +
                natVal ((padded.drop (L - d)).take 4)) * 10 ^ (d - 4) by ring]
        rw [Nat.add_mul_mod_self_right]
      have h2 : natVal ((padded.drop (L - d)).drop 4) % 10 ^ (d - 4) = 0 := by
        rw [← h1]
        exact hmod
      rwa [Nat.mod_eq_of_lt hrestlt] at h2
    have hfval2 : natVal (padded.drop (L - d)) =
        natVal ((padded.drop (L - d)).take 4) * 10 ^ (d - 4) := by
      omega
    -- trimming
    have htrim := natVal_trim ((padded.drop (L - d)).take 4)
    have htrim_le := trim_length_le ((padded.drop (L - d)).take 4)
    have htrimdig : ∀ c ∈ trimTrailingZeros ((padded.drop (L - d)).take 4),
        isDigitChar c = true :=
      fun c hc => hfrdig c (List.take_subset _ _ (trim_subset _ c hc))
    rw [hbody]
    by_cases htr : trimTrailingZeros ((padded.drop (L - d)).take 4) = []
    · rw [if_pos htr]
      rw [decValue_no_dot _ (no_dot_of_digits _ hipdig)]
      have htz : natVal (List.take 4 (List.drop (L - d) padded)) = 0 := by
        rw [htrim, htr]
        simp [natVal]
      rw [hval, hfval2, htz]
      push_cast
      field_simp
    · rw [if_neg htr]
      rw [decValue_dot _ _ (no_dot_of_digits _ hipdig) (no_dot_of_digits _ htrimdig)]
      rw [hval, hfval2, htrim]
      have hexp : ((padded.drop (L - d)).take 4).length -
            (trimTrailingZeros ((padded.drop (L - d)).take 4)).length +
            (d - 4) +
            (trimTrailingZeros ((padded.drop (L - d)).take 4)).length = d := by
        rw [htk_len] at htrim_le ⊢
        omega
      push_cast
      rw [show ((10:ℚ) ^ d) = 10 ^ (((padded.drop (L - d)).take 4).length -
          (trimTrailingZeros ((padded.drop (L - d)).take 4)).length) *
          10 ^ (d - 4) *
          10 ^ (trimTrailingZeros ((padded.drop (L - d)).take 4)).length by
        rw [← pow_add, ← pow_add, hexp]]
      have h10 : (0:ℚ) < 10 := by norm_num
      field_simp
      ring



/-- C5 counterexample: `toHuman(toBaseUnits("0.12345", 6), 6)` is `0.1234`,
which is not numerically equal to `0.12345`: `formatTokenAmount` keeps at
most 4 fractional digits, so the round trip loses the fifth one. -/
theorem claim5_round_trip_counterexample :
    decValue (formatTokenAmount
      (parseAmount ['0', '.', '1', '2', '3', '4', '5'] 6) 6) ≠
      decValue ['0', '.', '1', '2', '3', '4', '5'] := by
  have h1 : formatTokenAmount (parseAmount ['0', '.', '1', '2', '3', '4', '5'] 6) 6 =
      ['0', '.', '1', '2', '3', '4'] := by decide
  rw [h1]
  show decValue (['0'] ++ '.' :: ['1', '2', '3', '4']) ≠
    decValue (['0'] ++ '.' :: ['1', '2', '3', '4', '5'])
  rw [decValue_dot _ _ (by decide) (by decide),
    decValue_dot _ _ (by decide) (by decide)]
  have e1 : natVal ['0'] = 0 := by decide
  have e2 : natVal ['1', '2', '3', '4'] = 1234 := by decide
  have e3 : natVal ['1', '2', '3', '4', '5'] = 12345 := by decide
  rw [e1, e2, e3]
  norm_num

/-- C5 (amended): for every valid decimal string with at most
`min(decimals, 4)` fractional digits, converting to base units with
`parseAmount` and back with `formatTokenAmount` is numerically the
identity.  (The amendment restricts the fraction to 4 digits because
`formatTokenAmount` truncates the rendered fraction to 4 digits before
trimming trailing zeros.) -/
theorem claim5_amended_round_trip (I F : JStr) (d : Nat)
    (hI : ∀ c ∈ I, isDigitChar c = true) (hF : ∀ c ∈ F, isDigitChar c = true)
    (hFd : F.length ≤ d) (hF4 : F.length ≤ 4) :
    decValue (formatTokenAmount (parseAmount (I ++ '.' :: F) d) d) =
      decValue (I ++ '.' :: F) := by
  have hIdot := no_dot_of_digits I hI
  have hFdot := no_dot_of_digits F hF
  have hPA := parseAmount_eq_dot I F d hIdot hFdot hFd
  set X := I ++ (F ++ List.replicate (d - F.length) '0') with hXdef
  have hXdig : ∀ c ∈ X, isDigitChar c = true := by
    intro c hc
    rw [hXdef] at hc
    rcases List.mem_append.mp hc with h | h
    · exact hI c h
    · rcases List.mem_append.mp h with h2 | h2
      · exact hF c h2
      · rw [List.eq_of_mem_replicate h2]
        decide
  have hXval : natVal X = natVal I * 10 ^ d + natVal F * 10 ^ (d - F.length) := by
    rw [hXdef, natVal_append, natVal_append, natVal_replicate_zero,
      List.length_append, List.length_replicate]
    have h1 : F.length + (d - F.length) = d := by omega
    rw [h1]
    ring
  have hadig : ∀ c ∈ parseAmount (I ++ '.' :: F) d, isDigitChar c = true := by
    rw [hPA]
    by_cases hc : X.dropWhile (fun c => c = '0') = []
    · rw [if_pos hc]
      intro c hcm
      rw [List.mem_singleton] at hcm
      subst hcm
      decide
    · rw [if_neg hc]
      intro c hcm
      exact hXdig c ((List.dropWhile_sublist _).subset hcm)
  have haval : natVal (parseAmount (I ++ '.' :: F) d) = natVal X := by
    rw [hPA]
    by_cases hc : X.dropWhile (fun c => c = '0') = []
    · rw [if_pos hc]
      have h1 := natVal_dropWhile_zero X
      rw [hc] at h1
      rw [← h1]
      decide
    · rw [if_neg hc]
      exact natVal_dropWhile_zero X
  have hmod : natVal (parseAmount (I ++ '.' :: F) d) % 10 ^ (d - 4) = 0 := by
    rw [haval, hXval]
    obtain ⟨q1, hq1⟩ : (10:ℕ) ^ (d - 4) ∣ 10 ^ d := pow_dvd_pow 10 (by omega)
    obtain ⟨q2, hq2⟩ : (10:ℕ) ^ (d - 4) ∣ 10 ^ (d - F.length) :=
      pow_dvd_pow 10 (by omega)
    rw [hq1, hq2]
    rw [show natVal I * (10 ^ (d - 4) * q1) + natVal F * (10 ^ (d - 4) * q2) =
        (natVal I * q1 + natVal F * q2) * 10 ^ (d - 4) by ring]
    exact Nat.mul_mod_left _ _
  rw [format_value _ d hadig hmod, haval, hXval, decValue_dot I F hIdot hFdot]
  push_cast
  rw [show ((10:ℚ) ^ d) = 10 ^ (d - F.length) * 10 ^ F.length by
    rw [← pow_add]
    congr 1
    omega]
  field_simp
  ring

/-- Witness for the amended C5 at `1.25` with 6 decimals. -/
theorem claim5_amended_round_trip_witness :
    decValue (formatTokenAmount
      (parseAmount (['1'] ++ '.' :: ['2', '5']) 6) 6) =
      decValue (['1'] ++ '.' :: ['2', '5']) :=
  claim5_amended_round_trip ['1'] ['2', '5'] 6 (by decide) (by decide)
    (by norm_num) (by norm_num)



set_option maxRecDepth 100000 in
set_option maxHeartbeats 12000000 in
/-- C8: the name-hash starts from the 32-byte all-zero accumulator,
splits on `.`, reverses the label order and folds
`acc := keccak256(acc ++ keccak256(label))`: the empty string maps to
the all-zero value; a two-label name `a.b` hashes to
`H(H(0 ++ H(b)) ++ H(a))`; and swapping the order of the two distinct
labels `nick` and `eth` changes the result. -/
theorem claim8_namehash_fold :
    namehash [] = '0' :: 'x' :: bytesToHex (List.replicate 32 0) ∧
    (∀ a b : JStr, ('.') ∉ a → ('.') ∉ b →
      namehash (a ++ '.' :: b) = '0' :: 'x' :: bytesToHex
        (keccak256
          (keccak256 (List.replicate 32 0 ++ keccak256 (utf8Encode b)) ++
            keccak256 (utf8Encode a)))) ∧
    namehash ['n', 'i', 'c', 'k', '.', 'e', 't', 'h'] ≠
      namehash ['e', 't', 'h', '.', 'n', 'i', 'c', 'k'] := by
  refine ⟨rfl, ?_, ?_⟩
  · intro a b ha hb
    unfold namehash
    rw [if_neg (by simp), jsSplit_dot_append _ _ ha, jsSplit_no_sep _ _ hb]
    simp only [List.reverse_cons, List.reverse_nil, List.nil_append,
      List.cons_append, List.foldl_cons, List.foldl_nil]
  · decide

set_option maxRecDepth 100000 in
set_option maxHeartbeats 12000000 in
/-- Witness for C8: the fold shape at the concrete labels `nick` and
`eth`. -/
theorem claim8_namehash_fold_witness :
    namehash (['n', 'i', 'c', 'k'] ++ '.' :: ['e', 't', 'h']) =
      '0' :: 'x' :: bytesToHex
        (keccak256
          (keccak256 (List.replicate 32 0 ++
            keccak256 (utf8Encode ['e', 't', 'h'])) ++
            keccak256 (utf8Encode ['n', 'i', 'c', 'k']))) :=
  claim8_namehash_fold.2.1 ['n', 'i', 'c', 'k'] ['e', 't', 'h']
    (by decide) (by decide)


end Surecast
